import Mathlib

set_option maxHeartbeats 1000000
set_option maxRecDepth 10000

deriving instance DecidableEq for Except

/-!
Shallow embedding of the QorKernel memory-management and trap subsystems.

Each definition translates one Rust item from the repository sources
(`qor-core`, `qor-riscv`, `qor-os`).  Machine integers are modelled as `Nat`
with explicit `% 2 ^ w` or masking where the Rust code can wrap or truncate.
Atomic read-modify-write sequences are modelled as sequential state updates:
every lock acquisition that the single-threaded execution would win is taken
to succeed, and a lock acquisition on an entry already held by the same call
fails, exactly as the `AtomicU32`/`AtomicU64` bits behave without contention.
A `none` result models a Rust `panic!`/`assert!`/`unwrap` failure or an
out-of-fuel walk of a malformed linked structure.
-/

/-! ## Bitmap lock (`qor-core/src/utils/bitmap.rs`) -/

/-- 64-bit complement `!x` of a `u64`, as `Nat`. -/
def not64 (x : Nat) : Nat := x ^^^ (2 ^ 64 - 1)

/-- State of a `BitmapLock`: the `AtomicU64` buffer and the `length` field. -/
structure BState where
  words : List Nat
  length : Nat
deriving Repr, DecidableEq

/-- `self.bitmap[entry_index]` (a `none` result is an out-of-bounds panic). -/
def bmGetWord (s : BState) (ei : Nat) : Option Nat := s.words.get? ei

/-- Store a word back into the bitmap. -/
def bmSetWord (s : BState) (ei w : Nat) : BState :=
  { s with words := s.words.set ei w }

/-- `BitmapError` from `qor-core/src/utils/bitmap.rs`. -/
inductive BitmapError where
  | rangeOutOfBounds (start finish length : Nat)
  | unableToAllocate (length : Nat)
deriving Repr, DecidableEq

/-- `BitmapLock::clear_in_entry`: `fetch_and(!mask)` on one word (the `warn!`
log on already-clear bits has no state effect and is omitted). -/
def clearInEntry (s : BState) (ei mask : Nat) : Option BState :=
  match bmGetWord s ei with
  | none => none
  | some w => some (bmSetWord s ei (w &&& not64 mask))

/-- `BitmapLock::try_set_in_entry`: optimistically `fetch_or` the mask, and on
overlap with already-set bits clear exactly the newly acquired excess
`mask & !read`, returning whether all requested bits were newly acquired. -/
def trySetInEntry (s : BState) (ei mask : Nat) : Option (Bool × BState) :=
  match bmGetWord s ei with
  | none => none
  | some w =>
    let s1 := bmSetWord s ei (w ||| mask)
    if w &&& mask ≠ 0 then
      match clearInEntry s1 ei (mask &&& not64 w) with
      | none => none
      | some s2 => some (false, s2)
    else some (true, s1)

/-- The sub-span bit count used by `try_set`/`clear`:
`count.min(64 - offset_into_entry)`. -/
def spanBitCount (index count : Nat) : Nat := min count (64 - index % 64)

/-- The sub-span mask used by `try_set`/`clear` for the word `index / 64`. -/
def spanMask (index count : Nat) : Nat :=
  let bc := spanBitCount index count
  if bc < 64 then ((1 <<< bc) - 1) <<< (index % 64) else 2 ^ 64 - 1

/-- The recursion of `BitmapLock::clear`, structurally on a fuel bound; the
recursion consumes at least one bit per step, so `count + 1` fuel (supplied by
`bmClear`) always suffices and the `0` case is unreachable from the wrapper. -/
def bmClearGo : Nat → BState → Nat → Nat → Option (Except BitmapError Unit × BState)
  | 0, _, _, _ => none
  | fuel + 1, s, index, count =>
    if index + count ≥ s.length then
      some (.error (.rangeOutOfBounds index (index + count) s.length), s)
    else
      match clearInEntry s (index / 64) (spanMask index count) with
      | none => none
      | some s1 =>
        if 0 < count - spanBitCount index count then
          bmClearGo fuel s1 (index + spanBitCount index count)
            (count - spanBitCount index count)
        else some (.ok (), s1)

/-- `BitmapLock::clear`: clear `count` bits starting at `index`, word by word. -/
def bmClear (s : BState) (index count : Nat) :
    Option (Except BitmapError Unit × BState) :=
  bmClearGo (count + 1) s index count

/-- The recursion of `BitmapLock::try_set`, structurally on a fuel bound; the
recursion consumes at least one bit per step, so `count + 1` fuel (supplied by
`trySet`) always suffices and the `0` case is unreachable from the wrapper. -/
def trySetGo : Nat → BState → Nat → Nat → Option (Except BitmapError Bool × BState)
  | 0, _, _, _ => none
  | fuel + 1, s, index, count =>
    if index + count ≥ s.length then
      some (.error (.rangeOutOfBounds index (index + count) s.length), s)
    else
      match trySetInEntry s (index / 64) (spanMask index count) with
      | none => none
      | some (false, s1) => some (.ok false, s1)
      | some (true, s1) =>
        if 0 < count - spanBitCount index count then
          match trySetGo fuel s1 (index + spanBitCount index count)
              (count - spanBitCount index count) with
          | none => none
          | some (.ok true, s2) => some (.ok true, s2)
          | some (.ok false, s2) =>
            match bmClear s2 index (spanBitCount index count) with
            | none => none
            | some (.ok (), s3) => some (.ok false, s3)
            | some (.error e, s3) => some (.error e, s3)
          | some (.error e, s2) => some (.error e, s2)
        else some (.ok true, s1)

/-- `BitmapLock::try_set`: attempt to set `count` bits starting at `index`,
setting per-word sub-spans and unwinding (clearing what it already set) when a
later sub-span fails. -/
def trySet (s : BState) (index count : Nat) :
    Option (Except BitmapError Bool × BState) :=
  trySetGo (count + 1) s index count

/-- Bit recursion of `u64::trailing_ones`, structurally on the remaining bit
width. -/
def trailingOnesGo : Nat → Nat → Nat
  | 0, _ => 0
  | width + 1, m => if m % 2 = 1 then trailingOnesGo width (m / 2) + 1 else 0

/-- `u64::trailing_ones`: number of consecutive low one bits of a 64-bit
word. -/
def trailingOnes (m : Nat) : Nat := trailingOnesGo 64 m

/-- Inner `while mask_off_impossible_indexes != u64::MAX` loop of
`BitmapLock::reserve_sequence`, with fuel for termination; each pass tries the
lowest still-clear candidate bit in the word and on a lost race masks it off. -/
def reserveInner (s : BState) (count ei m : Nat) : Nat → Option (Option Nat × BState)
  | 0 => none
  | fuel + 1 =>
    if m = 2 ^ 64 - 1 then some (none, s)
    else
      let bit := trailingOnes m
      match trySet s (ei * 64 + bit) count with
      | none => none
      | some (.ok true, s1) => some (some (ei * 64 + bit), s1)
      | some (.error _, s1) => some (none, s1)
      | some (.ok false, s1) => reserveInner s1 count ei (m ||| (1 <<< bit)) fuel

/-- Outer `for entry_index in 0..self.bitmap.len()` loop of
`BitmapLock::reserve_sequence`. -/
def reserveLoop (s : BState) (count : Nat) : List Nat → Option (Option Nat × BState)
  | [] => some (none, s)
  | ei :: rest =>
    match bmGetWord s ei with
    | none => none
    | some w =>
      match reserveInner s count ei w 65 with
      | none => none
      | some (some idx, s1) => some (some idx, s1)
      | some (none, s1) => reserveLoop s1 count rest

/-- `BitmapLock::reserve_sequence`: scan all words for `count` contiguous
clear bits, or report `UnableToAllocate`. -/
def reserveSequence (s : BState) (count : Nat) :
    Option (Except BitmapError Nat × BState) :=
  match reserveLoop s count (List.range s.words.length) with
  | none => none
  | some (some idx, s1) => some (.ok idx, s1)
  | some (none, s1) => some (.error (.unableToAllocate count), s1)

/-! ## Page bitmap allocator (`qor-core/src/memory/allocators/page/bitmap.rs`) -/

/-- `AllocationError` of the page allocators. -/
inductive AllocationError where
  | outOfMemory (requested : Nat)
  | uninitialized
deriving Repr, DecidableEq

/-- Result of `PageBitmapAllocator::allocate`, with an explicit constructor
for a Rust `panic!`/`assert!`/`unreachable!`. -/
inductive PAResult where
  | panicked
  | ok (ptr : Nat)
  | error (e : AllocationError)
deriving Repr, DecidableEq

/-- State of a `PageBitmapAllocator<Page>`; `startPointer = 0` models the null
pointer of an uninitialized allocator, `pageSize` is `size_of::<Page>()`. -/
structure PBAState where
  bitmap : BState
  startPointer : Nat
  pageSize : Nat
deriving Repr, DecidableEq

/-- `PageBitmapAllocator::allocate`: assert `page_count > 0`, fail when
uninitialized, otherwise reserve a bit sequence and return
`start_pointer.add(sequence_index)`. -/
def pbaAllocate (s : PBAState) (pageCount : Nat) : PAResult × PBAState :=
  if pageCount = 0 then (.panicked, s)
  else if s.startPointer = 0 then (.error .uninitialized, s)
  else
    match reserveSequence s.bitmap pageCount with
    | none => (.panicked, s)
    | some (.ok idx, b1) =>
      (.ok (s.startPointer + idx * s.pageSize), { s with bitmap := b1 })
    | some (.error (.rangeOutOfBounds _ _ _), b1) => (.panicked, { s with bitmap := b1 })
    | some (.error (.unableToAllocate l), b1) =>
      (.error (.outOfMemory l), { s with bitmap := b1 })

/-- `PageBitmapAllocator::from_pages` for a page type of `pageSize` bytes and
`n` input pages starting at address `base`: carve
`⌈n / (64·(pageSize/8) + 1)⌉` pages for the zeroed bitmap and manage the rest. -/
def fromPages (pageSize n base : Nat) : PBAState :=
  let u64sPerPage := pageSize / 8
  let denom := 64 * u64sPerPage + 1
  let pagesForBitmap := (n + denom - 1) / denom
  let forAllocation := n - pagesForBitmap
  let wordCount := pagesForBitmap * u64sPerPage
  let useLength := if wordCount * 64 ≥ forAllocation then wordCount * 64 else forAllocation
  { bitmap := { words := List.replicate wordCount 0, length := useLength },
    startPointer := base + pagesForBitmap * pageSize,
    pageSize := pageSize }

/-- Number of pages managed by `from_pages` (the `for_allocation` slice),
i.e. the capacity of the allocator. -/
def managedPages (pageSize n : Nat) : Nat :=
  let denom := 64 * (pageSize / 8) + 1
  n - (n + denom - 1) / denom

/-! ## Byte allocator (`qor-core/src/memory/allocators/byte/mod.rs`)

An `AllocationTableEntry` packs lock/valid/allocated flags, a 13-bit length,
a 16-bit next index and the low 32 pointer bits into 64 bits.  The lock bit
only serialises concurrent mutation; in this sequential embedding an entry is
represented by its unpacked payload fields, and a `lock()` attempt fails
exactly when the same call already holds that entry (which the Rust code
answers with `todo!()`, modelled as `none`).  `set_allocation_length` stores
`length & 0x1FFF` and `set_low_pointer` stores a `u32`, which the model
reproduces with explicit masking.  A linked chain of `AllocationTable`s whose
`pointer_upper_32` all equal that of the root (any completed `add_region`
asserts exactly this) is flattened into one entry list indexed from 0. -/

/-- Unpacked payload of one `AllocationTableEntry`. -/
structure ATEntry where
  valid : Bool
  allocated : Bool
  length : Nat
  next : Nat
  low : Nat
deriving Repr, DecidableEq

/-- `AllocationTableEntry::empty()`: all flag and data bits zero. -/
def atEmptyEntry : ATEntry :=
  { valid := false, allocated := false, length := 0, next := 0, low := 0 }

/-- State of the allocation-table chain: the shared `pointer_upper_32` and the
entries reachable through `AllocationTable::index`. -/
structure ATState where
  upper : Nat
  entries : List ATEntry
deriving Repr, DecidableEq

/-- `AllocationTable::index`: `none` is an out-of-range index (a missing
linked table). -/
def atGet (s : ATState) (i : Nat) : Option ATEntry := s.entries.get? i

/-- Write back an entry (the holder of the entry lock updating its bits). -/
def atSet (s : ATState) (i : Nat) (e : ATEntry) : ATState :=
  { s with entries := s.entries.set i e }

/-- `set_allocation_length` truncation: the stored bits are `length & 0x1FFF`. -/
def atMaskLen (n : Nat) : Nat := n &&& 0x1FFF

/-- `AllocationTableEntryGuard::pointer(upper)`: `(upper << 32) | low`. -/
def atPointer (upper low : Nat) : Nat := (upper <<< 32) ||| low

/-- Index of the first invalid entry of the list, if any. -/
def findInvalidIdx : List ATEntry → Option Nat
  | [] => none
  | e :: rest =>
    if e.valid = false then some 0 else (findInvalidIdx rest).map (· + 1)

/-- `AllocationTable::find_first_invalid(ptr)`: first invalid entry of a table
whose `pointer_upper_32` matches `ptr >> 32` (entries held by the caller are
skipped by the failed `lock()`, but the caller only ever holds valid
entries).  Returns the entry index. -/
def findFirstInvalid (s : ATState) (ptr : Nat) : Option Nat :=
  if s.upper = ptr >>> 32 then findInvalidIdx s.entries
  else none

/-- Walk of `AllocationTable::add_region` when the first entry is already
valid: follow `next` links to the end of the list, then hook a fresh invalid
entry holding the new region after it. -/
def addRegionWalk (s : ATState) (ptr len i : Nat) : Nat → Option ATState
  | 0 => none
  | fuel + 1 =>
    match atGet s i with
    | none => none
    | some e =>
      if e.valid = false then none
      else if 0 < e.next then addRegionWalk s ptr len e.next fuel
      else
        match findFirstInvalid s ptr with
        | none => none
        | some j =>
          let fresh : ATEntry :=
            { valid := true, allocated := false, length := atMaskLen len,
              next := 0, low := ptr % 2 ^ 32 }
          some (atSet (atSet s j fresh) i { e with next := j })

/-- `AllocationTable::add_region`: install a region of `len` bytes at address
`ptr` as a free entry, and assert that the region's upper pointer bits match
the table's `pointer_upper_32`. -/
def addRegionOp (s : ATState) (ptr len : Nat) : Option ATState :=
  match atGet s 0 with
  | none => none
  | some e0 =>
    let low := ptr % 2 ^ 32
    let high := ptr >>> 32
    if e0.valid = false then
      let s1 := atSet s 0
        { valid := true, allocated := false, length := atMaskLen len,
          next := 0, low := low }
      let s2 : ATState := { s1 with upper := high }
      if s2.upper = high then some s2 else none
    else
      match addRegionWalk s ptr len 0 (s.entries.length + 1) with
      | none => none
      | some s1 => if s1.upper = high then some s1 else none

/-- The body of one `alloc` loop iteration for the held entry `e` at index
`i`: when the entry is free, compute the alignment slack, and either take the
region exactly, split off the tail into a fresh invalid entry, or do nothing.
`none` is the division panic for a zero alignment; `some (none, s)` leaves the
state untouched. -/
def allocTryEntry (s : ATState) (size align i : Nat) (e : ATEntry) :
    Option (Option Nat × ATState) :=
  if e.allocated = false then
    if align = 0 then none
    else
      let slack := (align - e.low % align) % align
      if e.length = slack + size then
        some (some (atPointer s.upper e.low + slack),
          atSet s i { e with allocated := true })
      else if slack + size < e.length then
        match findFirstInvalid s (atPointer s.upper e.low + slack + size) with
        | some j =>
          let tail : ATEntry :=
            { valid := true, allocated := false,
              length := atMaskLen (e.length - slack - size),
              next := e.next, low := (e.low + slack + size) % 2 ^ 32 }
          let head : ATEntry :=
            { valid := true, allocated := true,
              length := atMaskLen (slack + size),
              next := j, low := e.low }
          some (some (atPointer s.upper e.low + slack),
            atSet (atSet s j tail) i head)
        | none => some (none, s)
      else some (none, s)
  else some (none, s)

/-- Walk of `AllocationTable::alloc`: visit the linked list of valid entries;
at each free entry attempt `allocTryEntry`.  The result is `some (some p, s)`
on a successful allocation, `some (none, s)` when the walk ends without one,
and `none` on a panic (an invalid linked entry or a zero alignment's
division). -/
def allocWalk (s : ATState) (size align i : Nat) : Nat → Option (Option Nat × ATState)
  | 0 => none
  | fuel + 1 =>
    match atGet s i with
    | none => some (none, s)
    | some e =>
      if e.valid = false then none
      else
        match allocTryEntry s size align i e with
        | none => none
        | some (some p, s1) => some (some p, s1)
        | some (none, s1) =>
          if 0 < e.next then allocWalk s1 size align e.next fuel
          else some (none, s1)

/-- `AllocationTable::alloc(size, align)`. -/
def allocOp (s : ATState) (size align : Nat) : Option (Option Nat × ATState) :=
  allocWalk s size align 0 (s.entries.length + 1)

/-- Walk of `AllocationTable::free(ptr)`: clear the allocated flag of the
first allocated entry whose region contains `ptr`; reaching the end of the
list without a match is a `panic!()`. -/
def freeWalk (s : ATState) (ptr i : Nat) : Nat → Option ATState
  | 0 => none
  | fuel + 1 =>
    match atGet s i with
    | none => none
    | some e =>
      if e.valid = false then none
      else if e.allocated = true ∧ atPointer s.upper e.low ≤ ptr ∧
          ptr < atPointer s.upper e.low + e.length then
        some (atSet s i { e with allocated := false })
      else if 0 < e.next then freeWalk s ptr e.next fuel
      else none

/-- `AllocationTable::free(ptr)`. -/
def freeOp (s : ATState) (ptr : Nat) : Option ATState :=
  freeWalk s ptr 0 (s.entries.length + 1)

/-- Walk of `AllocationTable::coalesce_free_regions`: while the current entry
has a linked successor, merge the two when both are free, adjacent by pointer
(`low + length` wrapping at 32 bits) and their combined length fits 4096
bytes; on a merge stay at the current entry, otherwise advance.  Locking the
successor fails when it is the current entry itself (`todo!()`, i.e. `none`). -/
def coalesceWalk (s : ATState) (i : Nat) : Nat → Option ATState
  | 0 => none
  | fuel + 1 =>
    match atGet s i with
    | none => none
    | some e =>
      if e.valid = false then none
      else if 0 < e.next then
        match atGet s e.next with
        | none => some s
        | some ne =>
          if e.next = i then none
          else if e.allocated = false ∧ ne.allocated = false ∧ ne.valid = true ∧
              (e.low + e.length) % 2 ^ 32 = ne.low ∧ e.length + ne.length ≤ 4096 then
            let merged :=
              atSet (atSet s i
                { e with length := atMaskLen (e.length + ne.length), next := ne.next })
                e.next { ne with valid := false }
            coalesceWalk merged i fuel
          else coalesceWalk s e.next fuel
      else some s

/-- `AllocationTable::coalesce_free_regions`. -/
def coalesceOp (s : ATState) : Option ATState :=
  coalesceWalk s 0 (2 * s.entries.length + 2)

/-- `ALLOCATION_TABLE_LENGTH = (4096 - 4 * size_of::<usize>()) / 8`. -/
def allocationTableLength : Nat := (4096 - 4 * 8) / 8

/-- `AllocationTable::new()`: empty entries, null links, zero upper bits. -/
def atNew : ATState :=
  { upper := 0, entries := List.replicate allocationTableLength atEmptyEntry }

/-- One operation applied to the allocation table. -/
inductive ATOp where
  | addRegion (ptr len : Nat)
  | alloc (size align : Nat)
  | free (ptr : Nat)
  | coalesce
deriving Repr, DecidableEq

/-- Apply one operation (`alloc` keeps only the state; its returned pointer
does not change the bookkeeping). -/
def atRunOp (s : ATState) : ATOp → Option ATState
  | .addRegion ptr len => addRegionOp s ptr len
  | .alloc size align => (allocOp s size align).map Prod.snd
  | .free ptr => freeOp s ptr
  | .coalesce => coalesceOp s

/-- Apply a sequence of operations; `none` as soon as one panics. -/
def atRunOps (s : ATState) : List ATOp → Option ATState
  | [] => some s
  | op :: rest =>
    match atRunOp s op with
    | none => none
    | some s1 => atRunOps s1 rest

/-- Contribution of one entry to the bookkeeping total: its allocation length
when valid, nothing otherwise. -/
def atContrib (e : ATEntry) : Nat := if e.valid then e.length else 0

/-- Sum of the allocation lengths of all valid entries (free plus allocated). -/
def sumValid (s : ATState) : Nat := (s.entries.map atContrib).sum

/-- Sum of the lengths of the regions added by a sequence of operations. -/
def addedSum : List ATOp → Nat
  | [] => 0
  | .addRegion _ len :: rest => len + addedSum rest
  | _ :: rest => addedSum rest

/-- The (truncated) length one operation adds to the bookkeeping total. -/
def opAdded : ATOp → Nat
  | .addRegion _ len => atMaskLen len
  | _ => 0

/-! ## Sv39 page tables (`qor-riscv/src/memory/mmu/`)

A `PageTable` is 512 `u64` entries; it is represented sparsely as an
association list from entry index to entry value with default 0 (an all-zero,
i.e. all-invalid, table is `[]`).  Physical memory holding the tables is an
association list from table address to table.  `alloc_page` is modelled by a
supply of fresh table addresses; an exhausted supply is the null-pointer
`unwrap` panic, and following a pointer to an address that holds no table is
the undefined behaviour of the Rust code, both modelled as `none`. -/

/-- Sparse 512-entry page table: index to 64-bit entry value, default 0. -/
abbrev PTable := List (Nat × Nat)

/-- Physical memory: table address to page table. -/
abbrev Heap := List (Nat × PTable)

/-- Read entry `i` of a table (missing association = entry value 0). -/
def ptGet (t : PTable) (i : Nat) : Nat :=
  ((t.find? (fun p => p.1 = i)).map Prod.snd).getD 0

/-- Write entry `i` of a table. -/
def ptSet (t : PTable) (i v : Nat) : PTable := (i, v) :: t

/-- Look up the table at address `a`. -/
def hGet (h : Heap) (a : Nat) : Option PTable :=
  (h.find? (fun p => p.1 = a)).map Prod.snd

/-- Write entry `i` of the table at address `a`. -/
def hSetEntry (h : Heap) (a i v : Nat) : Heap :=
  h.map (fun p => if p.1 = a then (p.1, ptSet p.2 i v) else p)

/-- Install a fresh all-invalid table at address `a`
(`PageTable::empty()` written into a newly allocated page). -/
def hAddTable (h : Heap) (a : Nat) : Heap := (a, []) :: h

/-- `VirtualAddress::vpn0/vpn1/vpn2` via `vpn(index)`. -/
def vpn (va : Nat) : Nat → Nat
  | 0 => (va >>> 12) &&& 511
  | 1 => (va >>> 21) &&& 511
  | 2 => (va >>> 30) &&& 511
  | _ => 0

/-- `VirtualAddress::page_offset`: the low 12 bits. -/
def pageOffset (va : Nat) : Nat := va &&& 4095

/-- `PhysicalAddress::ppn0/ppn1/ppn2`. -/
def paPPN (pa : Nat) : Nat → Nat
  | 0 => (pa >>> 12) &&& 511
  | 1 => (pa >>> 21) &&& 511
  | 2 => (pa >>> 30) &&& (2 ^ 26 - 1)
  | _ => 0

/-- `PageTableEntry::construct_valid(ppn, rsw, gu_flags, perm_flags)`. -/
def constructValid (p0 p1 p2 rsw gu perm : Nat) : Nat :=
  ((p2 &&& (2 ^ 26 - 1)) <<< 28) ||| ((p1 &&& 511) <<< 19) ||| ((p0 &&& 511) <<< 10) |||
    ((rsw &&& 3) <<< 8) ||| gu ||| perm ||| 1

/-- `PageTableEntry::is_valid`. -/
def entryIsValid (e : Nat) : Bool := e &&& 1 ≠ 0

/-- `PageTableEntry::is_leaf`: the execute, read or write bit is set. -/
def entryIsLeaf (e : Nat) : Bool := (e &&& 8 ≠ 0) || (e &&& 2 ≠ 0) || (e &&& 4 ≠ 0)

/-- `PageTableEntry::physical_address`: reassemble the PPN fields and shift by
2 (i.e. the entry's bits 10..53 moved to bits 12..55). -/
def entryPhysicalAddress (e : Nat) : Nat :=
  ((((e >>> 28) &&& (2 ^ 26 - 1)) <<< 28) ||| (((e >>> 19) &&& 511) <<< 19) |||
    (((e >>> 10) &&& 511) <<< 10)) <<< 2

/-- `PageTableEntry::ppn_level(level)`: `(entry << 2) & !((1 << (12 + 9·level)) - 1)`
with wrapping `u64` shift. -/
def ppnLevel (e level : Nat) : Nat :=
  ((e <<< 2) % 2 ^ 64) &&& not64 (2 ^ (12 + level * 9) - 1)

/-- The `(level..2).rev()` iteration order of `PageTable::map`. -/
def mapLevels (level : Nat) : List Nat := (List.range' level (2 - level)).reverse

/-- The walking loop of `PageTable::map`: starting from entry `eIdx` of the
table at `t`, for each level index install a fresh sub-table when the entry is
invalid, then descend through the entry's physical address. Returns the table
address and entry index the leaf will be written to, plus the unused fresh
pages. -/
def mapGo (h : Heap) (t eIdx va : Nat) (fresh : List Nat) :
    List Nat → Option (Heap × Nat × Nat × List Nat)
  | [] => some (h, t, eIdx, fresh)
  | li :: rest =>
    match hGet h t with
    | none => none
    | some tbl =>
      let e := ptGet tbl eIdx
      if entryIsValid e then
        mapGo h (entryPhysicalAddress e) (vpn va li) va fresh rest
      else
        match fresh with
        | [] => none
        | f :: fr =>
          let e1 := constructValid (paPPN f 0) (paPPN f 1) (paPPN f 2) 0 0 0
          let h1 := hSetEntry (hAddTable h f) t eIdx e1
          mapGo h1 (entryPhysicalAddress e1) (vpn va li) va fr rest

/-- `PageTable::map(virt_addr, phys_addr, gu_flags, perm_flags, level, alloc_page)`
on the table at `root`: walk down to `level` and write the leaf entry.
Returns the new heap and the unused fresh pages. -/
def mapOp (h : Heap) (root va pa gu perm level : Nat) (fresh : List Nat) :
    Option (Heap × List Nat) :=
  match mapGo h root (vpn va 2) va fresh (mapLevels level) with
  | none => none
  | some (h1, t, eIdx, fr) =>
    match hGet h1 t with
    | none => none
    | some _ =>
      some (hSetEntry h1 t eIdx
        (constructValid (paPPN pa 0) (paPPN pa 1) (paPPN pa 2) 0 gu perm), fr)

/-- The walk of `PageTable::virtual_to_physical_address`, over the level
indices still to visit (`[2,1,0]` initially): stop with `none` at an invalid
entry, and at a leaf rebuild the address as
`ppn_level(level) | page_offset(va)`. -/
def v2pLoop (h : Heap) (va t eIdx : Nat) : List Nat → Option Nat
  | [] => none
  | li :: rest =>
    match hGet h t with
    | none => none
    | some tbl =>
      let e := ptGet tbl eIdx
      if entryIsValid e = false then none
      else if entryIsLeaf e then some (ppnLevel e li ||| pageOffset va)
      else
        match rest with
        | [] => none
        | li1 :: _ => v2pLoop h va (entryPhysicalAddress e) (vpn va li1) rest

/-- `PageTable::virtual_to_physical_address(virt_addr)` for the table at `root`. -/
def v2p (h : Heap) (root va : Nat) : Option Nat :=
  v2pLoop h va root (vpn va 2) [2, 1, 0]

/-- `LEVEL_SIZES` from `qor-riscv/src/memory/mmu/table.rs`. -/
def levelSize : Nat → Nat
  | 0 => 4096
  | 1 => 4096 * 512
  | 2 => 4096 * 512 * 512
  | _ => 0

/-- The level-selection chain at the head of each `map_range` iteration, with
the masks `LEVEL_2_MASK = 0xfffffffff`, `LEVEL_1_MASK = 0xffffff`,
`LEVEL_0_MASK = 0xfff` of the source; `rangeBytes` is
`range_length.raw_bytes()`.  `none` is the misalignment `panic!`. -/
def chooseLevel (rangeBytes va pa : Nat) : Option Nat :=
  if levelSize 2 ≤ rangeBytes ∧ va &&& 0xfffffffff = 0 ∧ pa &&& 0xfffffffff = 0 then
    some 2
  else if levelSize 1 ≤ rangeBytes ∧ va &&& 0xffffff = 0 ∧ pa &&& 0xffffff = 0 then
    some 1
  else if levelSize 0 ≤ rangeBytes ∧ va &&& 0xfff = 0 ∧ pa &&& 0xfff = 0 then
    some 0
  else none

/-- The loop of `PageTable::map_range`: while pages remain, choose a level,
map one (super)page and advance the addresses (wrapping `u64` adds) and the
remaining page count. -/
def mapRangeGo (root gu perm : Nat) :
    Nat → Heap → Nat → Nat → Nat → List Nat → Option Heap
  | 0, _, _, _, _, _ => none
  | fuel + 1, h, va, pa, n, fresh =>
    if n = 0 then some h
    else
      match chooseLevel (4096 * n) va pa with
      | none => none
      | some level =>
        match mapOp h root va pa gu perm level fresh with
        | none => none
        | some (h1, fr) =>
          mapRangeGo root gu perm fuel h1 ((va + levelSize level) % 2 ^ 64)
            ((pa + levelSize level) % 2 ^ 64) (n - levelSize level / 4096) fr

/-- `PageTable::map_range(virt_addr, phys_addr, range_length, …)` with
`range_length` given as a page count. -/
def mapRange (h : Heap) (root va pa n gu perm : Nat) (fresh : List Nat) : Option Heap :=
  mapRangeGo root gu perm (n + 1) h va pa n fresh

/-! ## Syscall dispatch (`qor-os/src/syscalls/`, `qor-core/src/structures/syscall_error.rs`) -/

/-- `SyscallError`. -/
inductive SyscallError where
  | badFileDescriptor
  | fault
deriving Repr, DecidableEq

/-- `From<SyscallError> for isize` as written in the source:
`BadFileDescriptor => 9`, `Fault => 14`. -/
def syscallErrorToIsize : SyscallError → Int
  | .badFileDescriptor => 9
  | .fault => 14

/-- A `Process` as far as the syscall path reads it: the trap-frame registers,
the root page table with its backing memory, and the file-descriptor table
keyed by small integers. -/
structure Process where
  registers : List Nat
  ptRoot : Nat
  heap : Heap
  fileDescriptors : List Nat
deriving Repr, DecidableEq

/-- `Process::kernel_pointer`: translate a userspace address through the
process's page table, `Fault` on failure. -/
def kernelPointer (p : Process) (address : Nat) : Except SyscallError Nat :=
  match v2p p.heap p.ptRoot address with
  | some v => .ok v
  | none => .error .fault

/-- `Process::file_descriptor`: look the descriptor up in the descriptor
table, `BadFileDescriptor` when missing. -/
def fileDescriptorPresent (p : Process) (fd : Nat) : Except SyscallError Unit :=
  if fd ∈ p.fileDescriptors then .ok () else .error .badFileDescriptor

/-- `syscalls::handlers::write::write(proc, fd, buffer, length)`: resolve the
buffer through the page table, fetch the descriptor, run the descriptor's
async write (which touches no register state), and return `len`. -/
def writeSyscall (p : Process) (fd buffer length : Nat) : Except SyscallError Nat :=
  match kernelPointer p buffer with
  | .error e => .error e
  | .ok _ =>
    match fileDescriptorPresent p fd with
    | .error e => .error e
    | .ok () => .ok length

/-- The error write-back of `raw_handle_syscall`:
`u64::from_ne_bytes(i64::to_ne_bytes(e as i64))`, i.e. the two's-complement
64-bit image of the `isize` error value. -/
def errorRegisterValue (e : SyscallError) : Nat :=
  (syscallErrorToIsize e).emod (2 ^ 64) |>.toNat

/-- `raw_handle_syscall`: dispatch on `x17`; only `Write = 1` is implemented
(other known numbers hit `todo!()` and unknown ones `panic!`, both `none`);
the result or error value is written to `x10`. -/
def rawHandleSyscall (p : Process) : Option Process :=
  let number := p.registers.getD 17 0
  if number = 1 then
    match writeSyscall p (p.registers.getD 10 0) (p.registers.getD 11 0)
        (p.registers.getD 12 0) with
    | .ok v => some { p with registers := p.registers.set 10 (v % 2 ^ 64) }
    | .error e => some { p with registers := p.registers.set 10 (errorRegisterValue e) }
  else none

/-! ## CLINT timer (`qor-riscv/src/drivers/clint/interface.rs`) -/

/-- CLINT device state: the per-hart `mtime` and `mtimecmp` registers (raw
10 MHz device ticks). -/
structure ClintState where
  mtime : Nat → Nat
  mtimecmp : Nat → Nat

/-- The value `HardwareTimer::set_time(hart, delta_us)` computes for
`mtimecmp`: `time()` divides the raw counter by 10, `delta_us` is added
(wrapping `u64`), and the sum is scaled by 10 (wrapping `u64`). -/
def setTimeValue (raw delta : Nat) : Nat :=
  (10 * ((raw / 10 + delta) % 2 ^ 64)) % 2 ^ 64

/-- `HardwareTimer::set_time(hart, delta_us)`: write the rearm value into
`mtimecmp[hart]`. -/
def clintSetTime (c : ClintState) (hart delta : Nat) : ClintState :=
  { c with
    mtimecmp := fun h =>
      if h = hart then setTimeValue (c.mtime hart) delta else c.mtimecmp h }

/-! ## Trap dispatch (`qor-os/src/trap/structures.rs`, `qor-os/src/trap/handle.rs`) -/

/-- `SynchronousTrap`. -/
inductive SynchronousTrap where
  | instructionAddressMisaligned
  | instructionAccessFault
  | illegalInstruction
  | breakpoint
  | loadAddressMisaligned
  | loadAccessFault
  | storeAddressMisaligned
  | storeAccessFault
  | environmentCallFromUMode
  | environmentCallFromSMode
  | environmentCallFromMMode
  | instructionPageFault
  | loadPageFault
  | storePageFault
deriving Repr, DecidableEq

/-- `AsynchronousTrap`. -/
inductive AsynchronousTrap where
  | userSoftware
  | supervisorSoftware
  | machineSoftware
  | userTimer
  | supervisorTimer
  | machineTimer
  | userExternal
  | supervisorExternal
  | machineExternal
deriving Repr, DecidableEq

/-- `TrapCause`. -/
inductive TrapCause where
  | sync (s : SynchronousTrap)
  | async (a : AsynchronousTrap)
deriving Repr, DecidableEq

/-- `TrapCause::from_cause`: decode the raw cause register value. -/
def fromCause (cause : Nat) : Option TrapCause :=
  if cause = 0 then some (.sync .instructionAddressMisaligned)
  else if cause = 1 then some (.sync .instructionAccessFault)
  else if cause = 2 then some (.sync .illegalInstruction)
  else if cause = 3 then some (.sync .breakpoint)
  else if cause = 4 then some (.sync .loadAddressMisaligned)
  else if cause = 5 then some (.sync .loadAccessFault)
  else if cause = 6 then some (.sync .storeAddressMisaligned)
  else if cause = 7 then some (.sync .storeAccessFault)
  else if cause = 8 then some (.sync .environmentCallFromUMode)
  else if cause = 9 then some (.sync .environmentCallFromSMode)
  else if cause = 11 then some (.sync .environmentCallFromMMode)
  else if cause = 12 then some (.sync .instructionPageFault)
  else if cause = 13 then some (.sync .loadPageFault)
  else if cause = 15 then some (.sync .storePageFault)
  else if cause = 0x8000000000000000 then some (.async .userSoftware)
  else if cause = 0x8000000000000001 then some (.async .supervisorSoftware)
  else if cause = 0x8000000000000003 then some (.async .machineSoftware)
  else if cause = 0x8000000000000004 then some (.async .userTimer)
  else if cause = 0x8000000000000005 then some (.async .supervisorTimer)
  else if cause = 0x8000000000000007 then some (.async .machineTimer)
  else if cause = 0x8000000000000008 then some (.async .userExternal)
  else if cause = 0x8000000000000009 then some (.async .supervisorExternal)
  else if cause = 0x800000000000000b then some (.async .machineExternal)
  else none

/-- Outcome of `handle_trap`: a normal return of a resume PC, a
context-switch into a process (`Process::switch` never returns), or a kernel
`panic!`. -/
inductive TrapOutcome where
  | resume (pc : Nat)
  | switched
  | panicked
deriving Repr, DecidableEq

/-- The dispatch `match` of `handle_trap(info)`: `some` of a diverging
outcome (a context switch into a process or a `panic!`/`todo!`), or `none`
when the arm falls through to the common return.  `hasProcess` abstracts
whether the process table has an entry to switch into at a machine-timer
trap, and `syscallDiverges` whether `raw_handle_syscall` for a found process
hits `todo!`/`panic!`; the driver, logging and process side effects of the
returning arms do not influence the returned PC and are not tracked here. -/
def trapDispatch (cause : TrapCause)
    (hasProcess pidFound syscallDiverges : Bool) : Option TrapOutcome :=
  match cause with
  | .async .machineTimer => if hasProcess then some .switched else none
  | .async .machineExternal => none
  | .sync .breakpoint => none
  | .sync .environmentCallFromUMode =>
    if pidFound && syscallDiverges then some .panicked else none
  | _ => some .panicked

/-- `matches!(info.cause, TrapCause::Synchronous(_))`. -/
def isSynchronous : TrapCause → Bool
  | .sync _ => true
  | .async _ => false

/-- `handle_trap(info)`: the dispatch `match` followed by the common
`if synchronous then epc + 4 else epc` return. -/
def handleTrap (cause : TrapCause) (epc : Nat)
    (hasProcess pidFound syscallDiverges : Bool) : TrapOutcome :=
  match trapDispatch cause hasProcess pidFound syscallDiverges with
  | some outcome => outcome
  | none => .resume (if isSynchronous cause then epc + 4 else epc)

/-! ## Concrete instances used by the counterexamples and witnesses -/

/-- A heap holding one empty root page table at address 4096. -/
def c1Heap : Heap := hAddTable [] 4096

/-- The heap after `map(va = 0, pa = 0, ReadWrite, level = 1)` on the empty
root table, with one fresh page at 8192 for the level-1 sub-table. -/
def c1Mapped : Heap := ((mapOp c1Heap 4096 0 0 0 6 1 [8192]).map Prod.fst).getD []

/-- A heap where the root at 4096 maps user page `va = 0x4000` to
`pa = 0x9000` at level 0 (two fresh sub-table pages). -/
def c3Mapped : Heap :=
  ((mapOp c1Heap 4096 0x4000 0x9000 16 6 0 [0x2000, 0x3000]).map Prod.fst).getD []

/-- Registers for a `write(fd, buf, len)` ecall: `x17 = 1` (Write),
`x10 = fd`, `x11 = buf`, `x12 = len`. -/
def writeRegisters (fd buf len : Nat) : List Nat :=
  ((((List.replicate 32 0).set 17 1).set 10 fd).set 11 buf).set 12 len

/-- Process issuing `write(1, 0x5000, 5)` with `0x5000` unmapped. -/
def procFault : Process :=
  { registers := writeRegisters 1 0x5000 5, ptRoot := 4096, heap := c1Heap,
    fileDescriptors := [0, 1] }

/-- Process issuing `write(7, 0x4000, 5)` with `0x4000` mapped but no
descriptor 7 in the table. -/
def procBadFd : Process :=
  { registers := writeRegisters 7 0x4000 5, ptRoot := 4096, heap := c3Mapped,
    fileDescriptors := [0, 1] }

/-- Process issuing `write(1, 0x4000, 5)` with `0x4000` mapped and
descriptor 1 present. -/
def procOk : Process :=
  { registers := writeRegisters 1 0x4000 5, ptRoot := 4096, heap := c3Mapped,
    fileDescriptors := [0, 1] }

/-- Bitmap with word 0 clear and bit 64 set, so that a span crossing the word
boundary collides in the second word and must unwind the first. -/
def c5S : BState := { words := [0, 2], length := 100 }

/-- The state `try_set(60, 6)` returns together with `Ok(false)` on `c5S`. -/
def c5SAfter : BState := { words := [0, 2], length := 100 }

/-- An operation sequence: seed one 4096-byte region, allocate 16 bytes at
alignment 8, free it, and coalesce. -/
def c6Ops : List ATOp :=
  [.addRegion 4096 4096, .alloc 16 8, .free 4096, .coalesce]

/-- The allocation-table state after running `c6Ops` from `atNew`. -/
def c6Final : ATState := (atRunOps atNew c6Ops).getD atNew

/-- A CLINT whose raw `mtime` counter reads 5 ticks on every hart. -/
def c7Clint : ClintState := { mtime := fun _ => 5, mtimecmp := fun _ => 0 }

/-- A table with one free 256-byte region at low pointer 0x100 and one
invalid spare entry. -/
def c9S : ATState :=
  { upper := 0,
    entries := [{ valid := true, allocated := false, length := 256, next := 0,
                  low := 0x100 }, atEmptyEntry] }

/-- The table state after `alloc(16, 8)` on `c9S`. -/
def c9After : ATState := ((allocOp c9S 16 8).getD (none, c9S)).2

/-- A freshly `new()`ed, uninitialized page bitmap allocator
(null start pointer). -/
def pbaUninit : PBAState :=
  { bitmap := { words := [], length := 0 }, startPointer := 0, pageSize := 4096 }

/-! # Helper lemmas -/

theorem list_set_get_back {α : Type} (l : List α) (i : Nat) (w : α)
    (h : l.get? i = some w) : l.set i w = l := by
  induction l generalizing i with
  | nil => simp at h
  | cons a t ih =>
    cases i with
    | zero => simp at h; simp [h]
    | succ k =>
      simp only [List.get?_cons_succ] at h
      simp only [List.set_cons_succ, List.cons.injEq, true_and]
      exact ih k h

theorem sum_map_set {α : Type} (f : α → Nat) (l : List α) (i : Nat) (a b : α)
    (h : l.get? i = some a) :
    ((l.set i b).map f).sum + f a = (l.map f).sum + f b := by
  induction l generalizing i with
  | nil => simp at h
  | cons c t ih =>
    cases i with
    | zero =>
      simp only [List.get?_cons_zero, Option.some.injEq] at h
      subst h
      simp only [List.set_cons_zero, List.map_cons, List.sum_cons]
      omega
    | succ k =>
      simp only [List.get?_cons_succ] at h
      simp only [List.set_cons_succ, List.map_cons, List.sum_cons]
      have := ih k h
      omega

theorem get_lt_length {α : Type} {l : List α} {i : Nat} {a : α}
    (h : l.get? i = some a) : i < l.length := by
  by_contra hc
  rw [List.get?_eq_none.mpr (by omega)] at h
  exact Option.noConfusion h

/-- Every bit of `w &&& m` being clear, stated per bit. -/
theorem and_eq_zero_bit {w m : Nat} (h : w &&& m = 0) (j : Nat) :
    (w.testBit j && m.testBit j) = false := by
  rw [← Nat.testBit_and, h]
  exact Nat.zero_testBit j

/-- Restoring a word after a lost optimistic `fetch_or`:
`(w | m) & !(m & !w) = w` for 64-bit values. -/
theorem restore_word (w m : Nat) (hw : w < 2 ^ 64) (hm : m < 2 ^ 64) :
    (w ||| m) &&& not64 (m &&& not64 w) = w := by
  apply Nat.eq_of_testBit_eq
  intro j
  rcases Nat.lt_or_ge j 64 with hj | hj
  · simp only [not64, Nat.testBit_and, Nat.testBit_or, Nat.testBit_xor,
      Nat.testBit_two_pow_sub_one, hj, decide_True, Bool.xor_true]
    cases hwb : w.testBit j <;> cases hmb : m.testBit j <;> rfl
  · have hwj : w.testBit j = false :=
      Nat.testBit_lt_two_pow (lt_of_lt_of_le hw (Nat.pow_le_pow_right (by norm_num) hj))
    have hmj : m.testBit j = false :=
      Nat.testBit_lt_two_pow (lt_of_lt_of_le hm (Nat.pow_le_pow_right (by norm_num) hj))
    have hj1 : ¬ j < 64 := by omega
    simp [not64, Nat.testBit_and, Nat.testBit_or, Nat.testBit_xor,
      Nat.testBit_two_pow_sub_one, hwj, hmj, hj1]

/-- Unwinding a span that was newly acquired: `(w | m) & !m = w` when
`w & m = 0` and both fit 64 bits. -/
theorem clear_or_word (w m : Nat) (hw : w < 2 ^ 64) (hm : m < 2 ^ 64)
    (hdisj : w &&& m = 0) : (w ||| m) &&& not64 m = w := by
  apply Nat.eq_of_testBit_eq
  intro j
  have hb := and_eq_zero_bit hdisj j
  rcases Nat.lt_or_ge j 64 with hj | hj
  · simp only [not64, Nat.testBit_and, Nat.testBit_or, Nat.testBit_xor,
      Nat.testBit_two_pow_sub_one, hj, decide_True, Bool.xor_true]
    cases hwb : w.testBit j <;> cases hmb : m.testBit j <;>
      simp [hwb, hmb] at hb ⊢
  · have hwj : w.testBit j = false :=
      Nat.testBit_lt_two_pow (lt_of_lt_of_le hw (Nat.pow_le_pow_right (by norm_num) hj))
    have hmj : m.testBit j = false :=
      Nat.testBit_lt_two_pow (lt_of_lt_of_le hm (Nat.pow_le_pow_right (by norm_num) hj))
    have hj1 : ¬ j < 64 := by omega
    simp [not64, Nat.testBit_and, Nat.testBit_or, Nat.testBit_xor,
      Nat.testBit_two_pow_sub_one, hwj, hmj, hj1]

theorem spanBitCount_le (index count : Nat) : spanBitCount index count ≤ count := by
  unfold spanBitCount; omega

theorem spanBitCount_idem (index count : Nat) :
    spanBitCount index (spanBitCount index count) = spanBitCount index count := by
  unfold spanBitCount; omega

theorem spanMask_idem (index count : Nat) :
    spanMask index (spanBitCount index count) = spanMask index count := by
  unfold spanMask
  rw [spanBitCount_idem]

theorem spanMask_lt (index count : Nat) : spanMask index count < 2 ^ 64 := by
  unfold spanMask
  simp only []
  set bc := spanBitCount index count with hbc
  have hbc64 : bc ≤ 64 - index % 64 := by rw [hbc]; unfold spanBitCount; omega
  have hoff : index % 64 < 64 := Nat.mod_lt _ (by omega)
  split
  · rw [Nat.shiftLeft_eq, Nat.shiftLeft_eq, Nat.one_mul]
    calc (2 ^ bc - 1) * 2 ^ (index % 64) < 2 ^ bc * 2 ^ (index % 64) := by
          have hp : 0 < 2 ^ (index % 64) := Nat.pos_pow_of_pos _ (by omega)
          have h1 : 2 ^ bc - 1 < 2 ^ bc := by
            have : 1 ≤ 2 ^ bc := Nat.one_le_two_pow
            omega
          exact (Nat.mul_lt_mul_right hp).mpr h1
      _ = 2 ^ (bc + index % 64) := (Nat.pow_add 2 bc (index % 64)).symm
      _ ≤ 2 ^ 64 := Nat.pow_le_pow_right (by omega) (by omega)
  · have : 1 ≤ 2 ^ 64 := Nat.one_le_two_pow
    omega

/-- A lost `try_set_in_entry` leaves the word, and hence the state, as it was. -/
theorem trySetInEntry_false (s : BState) (ei mask : Nat) (s1 : BState)
    (hb : ∀ w ∈ s.words, w < 2 ^ 64) (hm : mask < 2 ^ 64)
    (h : trySetInEntry s ei mask = some (false, s1)) : s1 = s := by
  unfold trySetInEntry at h
  cases hw : bmGetWord s ei with
  | none => rw [hw] at h; exact Option.noConfusion h
  | some w =>
    rw [hw] at h
    simp only [] at h
    have hwlt : w < 2 ^ 64 := hb w (List.get?_mem hw)
    by_cases hc : w &&& mask ≠ 0
    · rw [if_pos hc] at h
      cases hcl : clearInEntry (bmSetWord s ei (w ||| mask)) ei (mask &&& not64 w) with
      | none => rw [hcl] at h; exact Option.noConfusion h
      | some s2 =>
        rw [hcl] at h
        simp only [Option.some.injEq, Prod.mk.injEq, true_and] at h
        subst h
        unfold clearInEntry at hcl
        have hw1 : bmGetWord (bmSetWord s ei (w ||| mask)) ei = some (w ||| mask) := by
          unfold bmGetWord bmSetWord
          exact List.get?_set_eq_of_lt _ (by simpa using get_lt_length hw)
        rw [hw1] at hcl
        simp only [Option.some.injEq] at hcl
        rw [← hcl]
        unfold bmSetWord
        simp only [List.set_set]
        rw [restore_word w mask hwlt hm]
        exact congrArg (fun l => BState.mk l s.length) (list_set_get_back _ _ _ hw) |>.trans
          (by cases s; rfl)
    · rw [if_neg hc] at h
      simp at h

/-- A won `try_set_in_entry` ORs the mask into a word that had none of the
mask's bits set. -/
theorem trySetInEntry_true (s : BState) (ei mask : Nat) (s1 : BState)
    (h : trySetInEntry s ei mask = some (true, s1)) :
    ∃ w, bmGetWord s ei = some w ∧ w &&& mask = 0 ∧
      s1 = bmSetWord s ei (w ||| mask) := by
  unfold trySetInEntry at h
  cases hw : bmGetWord s ei with
  | none => rw [hw] at h; exact Option.noConfusion h
  | some w =>
    rw [hw] at h
    simp only [] at h
    by_cases hc : w &&& mask ≠ 0
    · rw [if_pos hc] at h
      cases hcl : clearInEntry (bmSetWord s ei (w ||| mask)) ei (mask &&& not64 w) with
      | none => rw [hcl] at h; exact Option.noConfusion h
      | some s2 => rw [hcl] at h; simp at h
    · rw [if_neg hc] at h
      simp only [Option.some.injEq, Prod.mk.injEq, true_and] at h
      exact ⟨w, rfl, by omega, h.symm⟩

/-- `bmSetWord` preserves 64-bit boundedness of the words when the new word is
bounded. -/
theorem bounded_setWord {s : BState} {ei w : Nat}
    (hb : ∀ x ∈ s.words, x < 2 ^ 64) (hw : w < 2 ^ 64) :
    ∀ x ∈ (bmSetWord s ei w).words, x < 2 ^ 64 := by
  intro x hx
  unfold bmSetWord at hx
  rcases List.mem_or_eq_of_mem_set hx with hmem | rfl
  · exact hb x hmem
  · exact hw

/-- Clearing the span that a won `try_set_in_entry` just set restores the
original state (the unwind step of `try_set`). -/
theorem bmClear_after_set (s : BState) (index count w : Nat)
    (hw : bmGetWord s (index / 64) = some w) (hwlt : w < 2 ^ 64)
    (hdisj : w &&& spanMask index count = 0)
    (hlen : index + count < s.length) :
    bmClear (bmSetWord s (index / 64) (w ||| spanMask index count)) index
      (spanBitCount index count) = some (.ok (), s) := by
  unfold bmClear
  rw [bmClearGo]
  have hlen1 : (bmSetWord s (index / 64) (w ||| spanMask index count)).length
      = s.length := rfl
  have hbc : spanBitCount index count ≤ count := spanBitCount_le index count
  rw [if_neg (by rw [hlen1]; omega)]
  rw [spanMask_idem]
  have hw1 : bmGetWord (bmSetWord s (index / 64) (w ||| spanMask index count))
      (index / 64) = some (w ||| spanMask index count) := by
    unfold bmGetWord bmSetWord
    exact List.get?_set_eq_of_lt _ (by simpa using get_lt_length hw)
  unfold clearInEntry
  rw [hw1]
  simp only []
  rw [clear_or_word w (spanMask index count) hwlt (spanMask_lt index count) hdisj]
  have hset : bmSetWord (bmSetWord s (index / 64) (w ||| spanMask index count))
      (index / 64) w = s := by
    unfold bmSetWord
    simp only [List.set_set]
    have := list_set_get_back s.words (index / 64) w hw
    cases s
    simp only at this ⊢
    rw [this]
  rw [hset]
  rw [if_neg (by rw [spanBitCount_idem]; omega)]

/-- The unwind property of `try_set`, proved for the fuelled recursion. -/
theorem trySetGo_false_restores (fuel : Nat) :
    ∀ (index count : Nat) (s s1 : BState),
    (∀ w ∈ s.words, w < 2 ^ 64) →
    trySetGo fuel s index count = some (.ok false, s1) →
    s1 = s := by
  induction fuel with
  | zero =>
    intro index count s s1 hb h
    exact Option.noConfusion h
  | succ fuel ih =>
    intro index count s s1 hb h
    rw [trySetGo] at h
    split at h
    · simp at h
    · rename_i hlen
      cases htse : trySetInEntry s (index / 64) (spanMask index count) with
      | none => rw [htse] at h; exact Option.noConfusion h
      | some p =>
        rw [htse] at h
        obtain ⟨b, sA⟩ := p
        cases b with
        | false =>
          simp only [Option.some.injEq, Prod.mk.injEq, Except.ok.injEq, true_and] at h
          rw [← h]
          exact trySetInEntry_false s _ _ sA hb (spanMask_lt index count) htse
        | true =>
          simp only [] at h
          split at h
          · rename_i hrem
            have hp : 0 < spanBitCount index count := by
              have hoff : index % 64 < 64 := Nat.mod_lt _ (by omega)
              unfold spanBitCount
              omega
            obtain ⟨w, hw, hdisj, hsA⟩ := trySetInEntry_true s _ _ sA htse
            have hbA : ∀ x ∈ sA.words, x < 2 ^ 64 := by
              rw [hsA]
              exact bounded_setWord hb
                (Nat.or_lt_two_pow (hb w (List.get?_mem hw)) (spanMask_lt index count))
            cases hrec : trySetGo fuel sA (index + spanBitCount index count)
                (count - spanBitCount index count) with
            | none => rw [hrec] at h; exact Option.noConfusion h
            | some q =>
              rw [hrec] at h
              obtain ⟨r, sB⟩ := q
              cases r with
              | error e => simp at h
              | ok bb =>
                cases bb with
                | true => simp at h
                | false =>
                  simp only [] at h
                  have hsB : sB = sA :=
                    ih _ _ sA sB hbA hrec
                  rw [hsB, hsA] at h
                  rw [bmClear_after_set s index count w hw
                    (hb w (List.get?_mem hw)) hdisj (by omega)] at h
                  simp only [Option.some.injEq, Prod.mk.injEq, Except.ok.injEq,
                    true_and] at h
                  exact h.symm
          · simp at h

/-- **C5.** Bitmap reservation unwind atomicity: whenever `try_set(index, count)`
returns `Ok(false)` — a lost collision inside a word, or a failed later
sub-span — the resulting bitmap equals the bitmap before the call: on the
requested range, every bit that was already set by another owner is still set
and every bit this call newly set has been cleared again, and no bit outside
the range was touched.  (Words are `u64`, hence the boundedness hypothesis.) -/
theorem c5_tryset_unwind_restores (index count : Nat) (s s1 : BState)
    (hb : ∀ w ∈ s.words, w < 2 ^ 64)
    (h : trySet s index count = some (.ok false, s1)) :
    s1 = s :=
  trySetGo_false_restores (count + 1) index count s s1 hb h

/-- Witness for C5: on the bitmap `[0, 2]` the span `[60, 66)` wins word 0,
collides with bit 65 in word 1, and unwinds; the state is unchanged. -/
theorem c5_witness :
    (∀ w ∈ c5S.words, w < 2 ^ 64) ∧
    trySet c5S 60 6 = some (.ok false, c5SAfter) ∧ c5SAfter = c5S := by
  have h : trySet c5S 60 6 = some (.ok false, c5SAfter) := by decide
  exact ⟨by decide, h, c5_tryset_unwind_restores 60 6 c5S c5SAfter (by decide) h⟩

/-! Helpers for the byte-allocator bookkeeping invariant. -/

theorem atMaskLen_lt (n : Nat) : atMaskLen n < 8192 := by
  unfold atMaskLen
  have h13 : (0x1FFF : Nat) = 2 ^ 13 - 1 := by norm_num
  rw [h13, Nat.and_pow_two_sub_one_eq_mod]
  exact Nat.mod_lt _ (by norm_num)

theorem atMaskLen_eq {n : Nat} (h : n ≤ 8191) : atMaskLen n = n := by
  unfold atMaskLen
  have h13 : (0x1FFF : Nat) = 2 ^ 13 - 1 := by norm_num
  rw [h13, Nat.and_pow_two_sub_one_eq_mod]
  exact Nat.mod_eq_of_lt (by norm_num at h ⊢; omega)

theorem findInvalidIdx_spec : ∀ (l : List ATEntry) (j : Nat),
    findInvalidIdx l = some j → ∃ e, l.get? j = some e ∧ e.valid = false := by
  intro l
  induction l with
  | nil => intro j h; exact Option.noConfusion h
  | cons e rest ih =>
    intro j h
    rw [findInvalidIdx] at h
    split at h
    · rename_i hv
      simp only [Option.some.injEq] at h
      exact ⟨e, by rw [← h]; rfl, hv⟩
    · cases hr : findInvalidIdx rest with
      | none => rw [hr] at h; exact Option.noConfusion h
      | some k =>
        rw [hr] at h
        simp only [Option.map_some', Option.some.injEq] at h
        obtain ⟨e1, he1, hv1⟩ := ih k hr
        exact ⟨e1, by rw [← h]; simpa using he1, hv1⟩

theorem findFirstInvalid_spec {s : ATState} {ptr j : Nat}
    (h : findFirstInvalid s ptr = some j) :
    ∃ e, atGet s j = some e ∧ e.valid = false := by
  unfold findFirstInvalid at h
  split at h
  · exact findInvalidIdx_spec s.entries j h
  · exact Option.noConfusion h

theorem lenInv_set {s : ATState} {i : Nat} {b : ATEntry}
    (h : ∀ e ∈ s.entries, e.length ≤ 8191) (he : b.length ≤ 8191) :
    ∀ e ∈ (atSet s i b).entries, e.length ≤ 8191 := by
  intro x hx
  rcases List.mem_or_eq_of_mem_set hx with hmem | rfl
  · exact h x hmem
  · exact he

theorem sumValid_set {s : ATState} {i : Nat} {a b : ATEntry}
    (h : s.entries.get? i = some a) :
    sumValid (atSet s i b) + atContrib a = sumValid s + atContrib b :=
  sum_map_set atContrib s.entries i a b h

theorem atGet_set_ne {s : ATState} {i j : Nat} {b : ATEntry} (h : i ≠ j) :
    atGet (atSet s i b) j = atGet s j :=
  List.get?_set_ne b s.entries h

/-- `add_region`'s tail walk adds exactly the truncated region length to the
bookkeeping total and keeps every stored length inside 13 bits. -/
theorem addRegionWalk_sum (ptr len : Nat) : ∀ (fuel i : Nat) (s s1 : ATState),
    (∀ e ∈ s.entries, e.length ≤ 8191) →
    addRegionWalk s ptr len i fuel = some s1 →
    sumValid s1 = sumValid s + atMaskLen len ∧
      (∀ e ∈ s1.entries, e.length ≤ 8191) := by
  intro fuel
  induction fuel with
  | zero => intro i s s1 hinv h; exact Option.noConfusion h
  | succ fuel ih =>
    intro i s s1 hinv h
    rw [addRegionWalk] at h
    cases hg : atGet s i with
    | none => rw [hg] at h; exact Option.noConfusion h
    | some e =>
      rw [hg] at h
      simp only [] at h
      split at h
      · exact Option.noConfusion h
      · rename_i hv
        split at h
        · exact ih e.next s s1 hinv h
        · cases hf : findFirstInvalid s ptr with
          | none => rw [hf] at h; exact Option.noConfusion h
          | some j =>
            rw [hf] at h
            simp only [Option.some.injEq] at h
            obtain ⟨fe, hfe, hfev⟩ := findFirstInvalid_spec hf
            have hij : i ≠ j := by
              intro hij
              rw [hij] at hg
              rw [hg] at hfe
              cases hfe
              rw [hfev] at hv
              exact hv rfl
            have hA := sumValid_set (a := fe)
              (b := { valid := true, allocated := false, length := atMaskLen len,
                       next := 0, low := ptr % 2 ^ 32 }) hfe
            have hgB : atGet (atSet s j
                { valid := true, allocated := false, length := atMaskLen len,
                  next := 0, low := ptr % 2 ^ 32 }) i = some e := by
              rw [atGet_set_ne (Ne.symm hij)]
              exact hg
            have hB := sumValid_set (b := { e with next := j }) hgB
            have hv1 : e.valid = true := by
              cases hval : e.valid
              · exact absurd hval hv
              · rfl
            have hcfe : atContrib fe = 0 := by simp [atContrib, hfev]
            have hce : atContrib e = e.length := by simp [atContrib, hv1]
            have hceB : atContrib { e with next := j } = e.length := by
              simp [atContrib, hv1]
            have hcf : atContrib { valid := true, allocated := false, length := atMaskLen len, next := 0, low := ptr % 2 ^ 32 } = atMaskLen len := by
              simp [atContrib]
            constructor
            · rw [← h]
              rw [hcfe, hcf] at hA
              rw [hce, hceB] at hB
              omega
            · rw [← h]
              exact lenInv_set
                (lenInv_set hinv
                  (by show atMaskLen len ≤ 8191; have := atMaskLen_lt len; omega))
                (by show e.length ≤ 8191; exact hinv e (List.get?_mem hg))

/-- `add_region` adds exactly the truncated region length to the bookkeeping
total. -/
theorem addRegionOp_sum {s s1 : ATState} {ptr len : Nat}
    (hinv : ∀ e ∈ s.entries, e.length ≤ 8191)
    (h : addRegionOp s ptr len = some s1) :
    sumValid s1 = sumValid s + atMaskLen len ∧
      (∀ e ∈ s1.entries, e.length ≤ 8191) := by
  unfold addRegionOp at h
  cases hg : atGet s 0 with
  | none => rw [hg] at h; exact Option.noConfusion h
  | some e0 =>
    rw [hg] at h
    simp only [] at h
    split at h
    · rename_i hv
      split at h
      · simp only [Option.some.injEq] at h
        have hA := sumValid_set (a := e0) (b := { valid := true, allocated := false, length := atMaskLen len, next := 0, low := ptr % 2 ^ 32 }) hg
        have hce0 : atContrib e0 = 0 := by simp [atContrib, hv]
        have hcf : atContrib { valid := true, allocated := false, length := atMaskLen len, next := 0, low := ptr % 2 ^ 32 } = atMaskLen len := by
          simp [atContrib]
        rw [hce0, hcf] at hA
        constructor
        · rw [← h]
          show sumValid (atSet s 0 _) = _
          omega
        · rw [← h]
          exact lenInv_set hinv
            (by show atMaskLen len ≤ 8191; have := atMaskLen_lt len; omega)
      · exact Option.noConfusion h
    · cases hw : addRegionWalk s ptr len 0 (s.entries.length + 1) with
      | none => rw [hw] at h; exact Option.noConfusion h
      | some s2 =>
        rw [hw] at h
        simp only [] at h
        split at h
        · simp only [Option.some.injEq] at h
          obtain ⟨hs, hi⟩ := addRegionWalk_sum ptr len _ 0 s s2 hinv hw
          rw [← h]
          exact ⟨hs, hi⟩
        · exact Option.noConfusion h

/-- One `alloc` attempt on a free entry preserves the bookkeeping total. -/
theorem allocTryEntry_sum {s s1 : ATState} {size align i : Nat} {e : ATEntry}
    {r : Option Nat}
    (hinv : ∀ x ∈ s.entries, x.length ≤ 8191)
    (hg : atGet s i = some e) (hv : e.valid = true)
    (h : allocTryEntry s size align i e = some (r, s1)) :
    sumValid s1 = sumValid s ∧ (∀ x ∈ s1.entries, x.length ≤ 8191) := by
  have hlen : e.length ≤ 8191 := hinv e (List.get?_mem hg)
  unfold allocTryEntry at h
  split at h
  · split at h
    · exact Option.noConfusion h
    · simp only [] at h
      split at h
      · rename_i hexact
        simp only [Option.some.injEq, Prod.mk.injEq] at h
        obtain ⟨h1, h2⟩ := h
        have hA := sumValid_set (a := e) (b := { e with allocated := true }) hg
        have hce : atContrib { e with allocated := true } = atContrib e := by
          simp [atContrib]
        rw [hce] at hA
        constructor
        · rw [← h2]; omega
        · rw [← h2]
          exact lenInv_set hinv (by show e.length ≤ 8191; exact hlen)
      · split at h
        · rename_i hlt
          cases hf : findFirstInvalid s
              (atPointer s.upper e.low + (align - e.low % align) % align + size) with
          | none =>
            rw [hf] at h
            simp only [Option.some.injEq, Prod.mk.injEq] at h
            obtain ⟨h1, h2⟩ := h
            rw [← h2]
            exact ⟨rfl, hinv⟩
          | some j =>
            rw [hf] at h
            simp only [Option.some.injEq, Prod.mk.injEq] at h
            obtain ⟨h1, h2⟩ := h
            obtain ⟨fe, hfe, hfev⟩ := findFirstInvalid_spec hf
            have hij : i ≠ j := by
              intro hij
              rw [hij] at hg
              rw [hg] at hfe
              cases hfe
              rw [hfev] at hv
              exact Bool.noConfusion hv
            have hA := sumValid_set (a := fe)
              (b := { valid := true, allocated := false, length := atMaskLen (e.length - (align - e.low % align) % align - size), next := e.next, low := (e.low + (align - e.low % align) % align + size) % 2 ^ 32 }) hfe
            have hgB : atGet (atSet s j { valid := true, allocated := false, length := atMaskLen (e.length - (align - e.low % align) % align - size), next := e.next, low := (e.low + (align - e.low % align) % align + size) % 2 ^ 32 }) i = some e := by
              rw [atGet_set_ne (Ne.symm hij)]
              exact hg
            have hB := sumValid_set
              (b := { valid := true, allocated := true, length := atMaskLen ((align - e.low % align) % align + size), next := j, low := e.low }) hgB
            have hcfe : atContrib fe = 0 := by simp [atContrib, hfev]
            have hce : atContrib e = e.length := by simp [atContrib, hv]
            have hctail : atContrib { valid := true, allocated := false, length := atMaskLen (e.length - (align - e.low % align) % align - size), next := e.next, low := (e.low + (align - e.low % align) % align + size) % 2 ^ 32 } = e.length - (align - e.low % align) % align - size := by
              simp only [atContrib, if_pos rfl]
              exact atMaskLen_eq (by omega)
            have hchead : atContrib { valid := true, allocated := true, length := atMaskLen ((align - e.low % align) % align + size), next := j, low := e.low } = (align - e.low % align) % align + size := by
              simp only [atContrib, if_pos rfl]
              exact atMaskLen_eq (by omega)
            rw [hcfe, hctail] at hA
            rw [hce, hchead] at hB
            constructor
            · rw [← h2]; omega
            · rw [← h2]
              exact lenInv_set (lenInv_set hinv (by simp only []; have := atMaskLen_lt (e.length - (align - e.low % align) % align - size); omega)) (by simp only []; have := atMaskLen_lt ((align - e.low % align) % align + size); omega)
        · simp only [Option.some.injEq, Prod.mk.injEq] at h
          obtain ⟨h1, h2⟩ := h
          rw [← h2]
          exact ⟨rfl, hinv⟩
  · simp only [Option.some.injEq, Prod.mk.injEq] at h
    obtain ⟨h1, h2⟩ := h
    rw [← h2]
    exact ⟨rfl, hinv⟩


/-- The `alloc` walk preserves the bookkeeping total. -/
theorem allocWalk_sum {size align : Nat} : ∀ (fuel i : Nat) (s s1 : ATState)
    (r : Option Nat),
    (∀ x ∈ s.entries, x.length ≤ 8191) →
    allocWalk s size align i fuel = some (r, s1) →
    sumValid s1 = sumValid s ∧ (∀ x ∈ s1.entries, x.length ≤ 8191) := by
  intro fuel
  induction fuel with
  | zero => intro i s s1 r hinv h; exact Option.noConfusion h
  | succ fuel ih =>
    intro i s s1 r hinv h
    rw [allocWalk] at h
    cases hg : atGet s i with
    | none =>
      rw [hg] at h
      simp only [Option.some.injEq, Prod.mk.injEq] at h
      obtain ⟨h1, h2⟩ := h
      rw [← h2]
      exact ⟨rfl, hinv⟩
    | some e =>
      rw [hg] at h
      simp only [] at h
      split at h
      · exact Option.noConfusion h
      · rename_i hvne
        have hv : e.valid = true := by
          cases hval : e.valid
          · exact absurd hval hvne
          · rfl
        cases hA : allocTryEntry s size align i e with
        | none => rw [hA] at h; exact Option.noConfusion h
        | some q =>
          rw [hA] at h
          obtain ⟨p, sA⟩ := q
          cases p with
          | some v =>
            simp only [Option.some.injEq, Prod.mk.injEq] at h
            obtain ⟨h1, h2⟩ := h
            rw [← h2]
            exact allocTryEntry_sum hinv hg hv hA
          | none =>
            simp only [] at h
            obtain ⟨hsA, hiA⟩ := allocTryEntry_sum hinv hg hv hA
            split at h
            · obtain ⟨hs1, hi1⟩ := ih e.next sA s1 r hiA h
              exact ⟨by omega, hi1⟩
            · simp only [Option.some.injEq, Prod.mk.injEq] at h
              obtain ⟨h1, h2⟩ := h
              rw [← h2]
              exact ⟨hsA, hiA⟩

/-- The `free` walk preserves the bookkeeping total. -/
theorem freeWalk_sum {ptr : Nat} : ∀ (fuel i : Nat) (s s1 : ATState),
    (∀ x ∈ s.entries, x.length ≤ 8191) →
    freeWalk s ptr i fuel = some s1 →
    sumValid s1 = sumValid s ∧ (∀ x ∈ s1.entries, x.length ≤ 8191) := by
  intro fuel
  induction fuel with
  | zero => intro i s s1 hinv h; exact Option.noConfusion h
  | succ fuel ih =>
    intro i s s1 hinv h
    rw [freeWalk] at h
    cases hg : atGet s i with
    | none => rw [hg] at h; exact Option.noConfusion h
    | some e =>
      rw [hg] at h
      simp only [] at h
      split at h
      · exact Option.noConfusion h
      · split at h
        · simp only [Option.some.injEq] at h
          have hA := sumValid_set (a := e) (b := { e with allocated := false }) hg
          have hce : atContrib { e with allocated := false } = atContrib e := by
            simp [atContrib]
          rw [hce] at hA
          constructor
          · rw [← h]; omega
          · rw [← h]
            exact lenInv_set hinv
              (by show e.length ≤ 8191; exact hinv e (List.get?_mem hg))
        · split at h
          · exact ih e.next s s1 hinv h
          · exact Option.noConfusion h

/-- The `coalesce_free_regions` walk preserves the bookkeeping total. -/
theorem coalesceWalk_sum : ∀ (fuel i : Nat) (s s1 : ATState),
    (∀ x ∈ s.entries, x.length ≤ 8191) →
    coalesceWalk s i fuel = some s1 →
    sumValid s1 = sumValid s ∧ (∀ x ∈ s1.entries, x.length ≤ 8191) := by
  intro fuel
  induction fuel with
  | zero => intro i s s1 hinv h; exact Option.noConfusion h
  | succ fuel ih =>
    intro i s s1 hinv h
    rw [coalesceWalk] at h
    cases hg : atGet s i with
    | none => rw [hg] at h; exact Option.noConfusion h
    | some e =>
      rw [hg] at h
      simp only [] at h
      split at h
      · exact Option.noConfusion h
      · rename_i hvne
        have hv : e.valid = true := by
          cases hval : e.valid
          · exact absurd hval hvne
          · rfl
        split at h
        · cases hn : atGet s e.next with
          | none =>
            rw [hn] at h
            simp only [Option.some.injEq] at h
            rw [← h]
            exact ⟨rfl, hinv⟩
          | some ne =>
            rw [hn] at h
            simp only [] at h
            split at h
            · exact Option.noConfusion h
            · rename_i hji
              split at h
              · rename_i hcond
                obtain ⟨hea, hnea, hnev, hadj, hle⟩ := hcond
                have hA := sumValid_set (a := e)
                  (b := { e with length := atMaskLen (e.length + ne.length), next := ne.next }) hg
                have hgB : atGet (atSet s i { e with length := atMaskLen (e.length + ne.length), next := ne.next }) e.next = some ne := by
                  rw [atGet_set_ne (by intro hc; exact hji hc.symm)]
                  exact hn
                have hB := sumValid_set (b := { ne with valid := false }) hgB
                have hce : atContrib e = e.length := by simp [atContrib, hv]
                have hceA : atContrib { e with length := atMaskLen (e.length + ne.length), next := ne.next } = e.length + ne.length := by
                  simp only [atContrib, hv, if_pos rfl]
                  exact atMaskLen_eq (by omega)
                have hcne : atContrib ne = ne.length := by simp [atContrib, hnev]
                have hcneB : atContrib { ne with valid := false } = 0 := by
                  simp [atContrib]
                rw [hce, hceA] at hA
                rw [hcne, hcneB] at hB
                have hinvM : ∀ x ∈ (atSet (atSet s i { e with length := atMaskLen (e.length + ne.length), next := ne.next }) e.next { ne with valid := false }).entries, x.length ≤ 8191 := by
                  apply lenInv_set
                  · apply lenInv_set hinv
                    show atMaskLen (e.length + ne.length) ≤ 8191
                    have := atMaskLen_lt (e.length + ne.length)
                    omega
                  · show ne.length ≤ 8191
                    exact hinv ne (List.get?_mem hn)
                obtain ⟨hs1, hi1⟩ := ih i _ s1 hinvM h
                exact ⟨by omega, hi1⟩
              · exact ih e.next s s1 hinv h
        · simp only [Option.some.injEq] at h
          rw [← h]
          exact ⟨rfl, hinv⟩

/-- One table operation changes the bookkeeping total by exactly the length
added by an `add_region` (truncated to 13 bits), and by nothing otherwise. -/
theorem atRunOp_sum {s s1 : ATState} {op : ATOp}
    (hinv : ∀ x ∈ s.entries, x.length ≤ 8191)
    (h : atRunOp s op = some s1) :
    sumValid s1 = sumValid s + opAdded op ∧
      (∀ x ∈ s1.entries, x.length ≤ 8191) := by
  cases op with
  | addRegion ptr len =>
    simp only [opAdded]
    exact addRegionOp_sum hinv h
  | alloc size align =>
    simp only [atRunOp] at h
    simp only [opAdded]
    cases hA : allocOp s size align with
    | none => rw [hA] at h; exact Option.noConfusion h
    | some q =>
      rw [hA] at h
      simp only [Option.map_some', Option.some.injEq] at h
      obtain ⟨p, sA⟩ := q
      obtain ⟨hs, hi⟩ := allocWalk_sum _ 0 s sA p hinv hA
      rw [← h]
      exact ⟨by simpa using hs, hi⟩
  | free ptr =>
    simp only [atRunOp] at h
    simp only [opAdded]
    obtain ⟨hs, hi⟩ := freeWalk_sum _ 0 s s1 hinv h
    exact ⟨by simpa using hs, hi⟩
  | coalesce =>
    simp only [atRunOp] at h
    simp only [opAdded]
    obtain ⟨hs, hi⟩ := coalesceWalk_sum _ 0 s s1 hinv h
    exact ⟨by simpa using hs, hi⟩

/-- Running a sequence of operations adds exactly the (untruncated) lengths of
the added regions, provided every added region length fits the 13-bit field. -/
theorem atRunOps_sum : ∀ (ops : List ATOp) (s s1 : ATState),
    (∀ x ∈ s.entries, x.length ≤ 8191) →
    (∀ ptr len, ATOp.addRegion ptr len ∈ ops → len < 8192) →
    atRunOps s ops = some s1 →
    sumValid s1 = sumValid s + addedSum ops ∧
      (∀ x ∈ s1.entries, x.length ≤ 8191) := by
  intro ops
  induction ops with
  | nil =>
    intro s s1 hinv hlens h
    simp only [atRunOps, Option.some.injEq] at h
    rw [← h]
    exact ⟨by simp [addedSum], hinv⟩
  | cons op rest ih =>
    intro s s1 hinv hlens h
    simp only [atRunOps] at h
    cases hstep : atRunOp s op with
    | none => rw [hstep] at h; exact Option.noConfusion h
    | some sA =>
      rw [hstep] at h
      simp only [] at h
      obtain ⟨hs, hi⟩ := atRunOp_sum hinv hstep
      obtain ⟨hs1, hi1⟩ := ih sA s1 hi
        (fun ptr len hmem => hlens ptr len (List.mem_cons_of_mem op hmem)) h
      cases op with
      | addRegion ptr len =>
        have hmask : atMaskLen len = len :=
          atMaskLen_eq (by have := hlens ptr len (List.mem_cons_self _ _); omega)
        simp only [opAdded] at hs
        rw [hmask] at hs
        simp only [addedSum]
        exact ⟨by omega, hi1⟩
      | alloc size align =>
        simp only [opAdded] at hs
        exact ⟨by simp only [addedSum]; omega, hi1⟩
      | free ptr =>
        simp only [opAdded] at hs
        exact ⟨by simp only [addedSum]; omega, hi1⟩
      | coalesce =>
        simp only [opAdded] at hs
        exact ⟨by simp only [addedSum]; omega, hi1⟩

/-- **C6 (amended).** Byte allocator length conservation: starting from a new
allocation table, after any completed sequence of `add_region`, `alloc`,
`free` and `coalesce_free_regions` operations in which every added region's
length fits the 13-bit length field (is < 8192), the sum of the allocation
lengths of all valid entries (free plus allocated) equals the sum of the
lengths of the added regions.  (The claim as frozen omits the length bound;
`c6_conservation_counterexample` shows it fails for a region of 8192 bytes,
whose stored length is truncated by `set_allocation_length`'s `& 0x1FFF`.) -/
theorem c6_length_conservation (ops : List ATOp) (s1 : ATState)
    (hlens : ∀ ptr len, ATOp.addRegion ptr len ∈ ops → len < 8192)
    (h : atRunOps atNew ops = some s1) :
    sumValid s1 = addedSum ops := by
  have hinv : ∀ x ∈ atNew.entries, x.length ≤ 8191 := by
    intro x hx
    have := List.eq_of_mem_replicate hx
    rw [this]
    exact Nat.le_of_lt (by norm_num [atEmptyEntry])
  obtain ⟨hs, _⟩ := atRunOps_sum ops atNew s1 hinv hlens h
  have hz : sumValid atNew = 0 := by
    unfold sumValid atNew
    simp [atContrib, atEmptyEntry]
  omega

/-- Counterexample to C6 as frozen: adding a single region of 8192 bytes
stores length `8192 & 0x1FFF = 0`, so the sum of valid entry lengths is 0,
not 8192. -/
theorem c6_conservation_counterexample :
    (atRunOps atNew [ATOp.addRegion 4096 8192]).isSome = true ∧
    sumValid ((atRunOps atNew [ATOp.addRegion 4096 8192]).getD atNew) = 0 ∧
    addedSum [ATOp.addRegion 4096 8192] = 8192 ∧ (0 : Nat) ≠ 8192 := by
  refine ⟨by decide, by decide, by decide, by decide⟩

/-- Witness for C6: seeding one 4096-byte region, allocating 16 bytes at
alignment 8, freeing it and coalescing conserves the 4096-byte total. -/
theorem c6_witness :
    atRunOps atNew c6Ops = some c6Final ∧ sumValid c6Final = addedSum c6Ops := by
  have h : atRunOps atNew c6Ops = some c6Final := by decide
  refine ⟨h, c6_length_conservation c6Ops c6Final ?_ h⟩
  intro ptr len hmem
  simp [c6Ops] at hmem
  omega

/-! Helpers for the byte-allocator alignment postcondition. -/

/-- `(u << 32) | b = (u << 32) + b` when `b` fits in the low 32 bits. -/
theorem shift32_lor_eq_add (u b : Nat) (hb : b < 2 ^ 32) :
    (u <<< 32) ||| b = (u <<< 32) + b := by
  apply Nat.eq_of_testBit_eq
  intro j
  rcases Nat.lt_or_ge j 32 with hj | hj
  · have hs : (u <<< 32).testBit j = false := by
      simp [Nat.testBit_shiftLeft]
      omega
    have hdiv : (u <<< 32 + b) / 2 ^ j = 2 * (u * 2 ^ (31 - j)) + b / 2 ^ j := by
      rw [Nat.shiftLeft_eq]
      have h32 : (2 : Nat) ^ 32 = 2 ^ j * (2 * 2 ^ (31 - j)) := by
        rw [← Nat.pow_succ']
        rw [← Nat.pow_add]
        congr 1
        omega
      rw [h32, ← Nat.mul_assoc, Nat.mul_comm u (2 ^ j), Nat.mul_assoc,
        Nat.add_comm, Nat.add_mul_div_left _ _ (Nat.pos_pow_of_pos j (by omega))]
      ring
    rw [Nat.testBit_or, hs, Bool.false_or]
    rw [Nat.testBit_to_div_mod, Nat.testBit_to_div_mod, hdiv]
    rw [Nat.add_comm, Nat.add_mul_mod_self_left]
  · have hbj : b.testBit j = false :=
      Nat.testBit_lt_two_pow (lt_of_lt_of_le hb (Nat.pow_le_pow_right (by norm_num) hj))
    have hdiv : (u <<< 32 + b) / 2 ^ j = (u <<< 32) / 2 ^ j := by
      rw [Nat.shiftLeft_eq]
      have h32 : (2 : Nat) ^ j = 2 ^ 32 * 2 ^ (j - 32) := by
        rw [← Nat.pow_add]
        congr 1
        omega
      have key : ∀ x : Nat, x / (2 ^ 32 * 2 ^ (j - 32)) = x / 2 ^ 32 / 2 ^ (j - 32) :=
        fun x => (Nat.div_div_eq_div_mul x _ _).symm
      have hpos : 0 < (2 : Nat) ^ 32 := Nat.pos_pow_of_pos 32 (by omega)
      have hL : (u * 2 ^ 32 + b) / 2 ^ 32 = u := by
        rw [Nat.mul_comm u (2 ^ 32), Nat.add_comm,
          Nat.add_mul_div_left _ _ hpos, Nat.div_eq_of_lt hb, Nat.zero_add]
      have hR : u * 2 ^ 32 / 2 ^ 32 = u := Nat.mul_div_cancel _ hpos
      rw [h32, key, key, hL, hR]
    rw [Nat.testBit_or, hbj, Bool.or_false]
    rw [Nat.testBit_to_div_mod, Nat.testBit_to_div_mod, hdiv]

/-- The align-slack formula really aligns: `(x + ((a - x % a) % a)) % a = 0`. -/
theorem slack_mod (a x : Nat) (ha : 0 < a) : (x + (a - x % a) % a) % a = 0 := by
  rcases Nat.eq_zero_or_pos (x % a) with hz | hp
  · rw [hz, Nat.sub_zero, Nat.mod_self]
    simpa using hz
  · have hlt : x % a < a := Nat.mod_lt x ha
    have h1 : (a - x % a) % a = a - x % a := Nat.mod_eq_of_lt (by omega)
    rw [h1]
    have h2 : x + (a - x % a) = a * (x / a) + a := by
      have := Nat.div_add_mod x a
      omega
    have h3 : a * (x / a) + a = a * (x / a + 1) := by ring
    rw [h2, h3, Nat.mul_mod_right]

/-- The pointer returned by either branch of `allocTryEntry` is
`(upper << 32 | low) + slack`; it is a multiple of any power-of-two alignment
dividing `2^32`. -/
theorem atPointer_slack_aligned (u low k : Nat) (hk : k ≤ 32) (hlow : low < 2 ^ 32) :
    (atPointer u low + (2 ^ k - low % 2 ^ k) % 2 ^ k) % 2 ^ k = 0 := by
  unfold atPointer
  rw [shift32_lor_eq_add u low hlow]
  have hdvd : (2 ^ k : Nat) ∣ u <<< 32 := by
    rw [Nat.shiftLeft_eq]
    exact Dvd.dvd.mul_left (Nat.pow_dvd_pow 2 (by omega)) u
  obtain ⟨c, hc⟩ := hdvd
  rw [hc, Nat.add_assoc, Nat.mul_comm (2 ^ k) c, Nat.add_comm,
    Nat.add_mul_mod_self_right]
  exact slack_mod (2 ^ k) low (Nat.pos_pow_of_pos k (by omega))

/-- A no-action `allocTryEntry` leaves the state untouched. -/
theorem allocTryEntry_none {s s1 : ATState} {size align i : Nat} {e : ATEntry}
    (h : allocTryEntry s size align i e = some (none, s1)) : s1 = s := by
  unfold allocTryEntry at h
  split at h
  · split at h
    · exact Option.noConfusion h
    · simp only [] at h
      split at h
      · simp at h
      · split at h
        · split at h
          · simp at h
          · simp only [Option.some.injEq, Prod.mk.injEq] at h
            exact h.2.symm
        · simp only [Option.some.injEq, Prod.mk.injEq] at h
          exact h.2.symm
  · simp only [Option.some.injEq, Prod.mk.injEq] at h
    exact h.2.symm

/-- A successful `allocTryEntry` returns the entry pointer plus the align
slack, which is a multiple of any power-of-two alignment up to `2^32`. -/
theorem allocTryEntry_aligned {s s1 : ATState} {size i k p : Nat} {e : ATEntry}
    (hk : k ≤ 32) (hlow : e.low < 2 ^ 32)
    (h : allocTryEntry s size (2 ^ k) i e = some (some p, s1)) :
    p % 2 ^ k = 0 := by
  unfold allocTryEntry at h
  split at h
  · split at h
    · exact Option.noConfusion h
    · simp only [] at h
      split at h
      · simp only [Option.some.injEq, Prod.mk.injEq, Option.some.injEq] at h
        rw [← h.1]
        exact atPointer_slack_aligned s.upper e.low k hk hlow
      · split at h
        · split at h
          · simp only [Option.some.injEq, Prod.mk.injEq, Option.some.injEq] at h
            rw [← h.1]
            exact atPointer_slack_aligned s.upper e.low k hk hlow
          · simp at h
        · simp at h
  · simp at h

/-- The `alloc` walk only returns pointers aligned to the requested
power-of-two alignment. -/
theorem allocWalk_aligned {size k : Nat} : ∀ (fuel i : Nat) (s s1 : ATState)
    (p : Nat), k ≤ 32 → (∀ x ∈ s.entries, x.low < 2 ^ 32) →
    allocWalk s size (2 ^ k) i fuel = some (some p, s1) → p % 2 ^ k = 0 := by
  intro fuel
  induction fuel with
  | zero => intro i s s1 p hk hlow h; exact Option.noConfusion h
  | succ fuel ih =>
    intro i s s1 p hk hlow h
    rw [allocWalk] at h
    cases hg : atGet s i with
    | none => rw [hg] at h; simp at h
    | some e =>
      rw [hg] at h
      simp only [] at h
      split at h
      · exact Option.noConfusion h
      · cases hA : allocTryEntry s size (2 ^ k) i e with
        | none => rw [hA] at h; exact Option.noConfusion h
        | some q =>
          rw [hA] at h
          obtain ⟨pr, sA⟩ := q
          cases pr with
          | some v =>
            simp only [Option.some.injEq, Prod.mk.injEq] at h
            rw [← h.1]
            exact allocTryEntry_aligned hk (hlow e (List.get?_mem hg)) hA
          | none =>
            simp only [] at h
            have hsA : sA = s := allocTryEntry_none hA
            split at h
            · rw [hsA] at h
              exact ih e.next s s1 p hk hlow h
            · simp at h

/-- **C9.** Byte allocator alignment postcondition: for every allocation
table state whose entries hold 32-bit low pointer fields, every size, and
every power-of-two alignment `a = 2^k` with `a ≤ 4096` (so `a` divides
`2^32`), if `alloc(size, a)` returns a pointer `p` then `p` is a multiple of
`a`: the align slack added to the region base makes the low 32 bits aligned,
and since `a` divides `2^32` the full `(upper << 32) | low` pointer is
aligned as well. -/
theorem c9_alloc_alignment (s : ATState) (size align k p : Nat) (s1 : ATState)
    (hk : k ≤ 12) (halign : align = 2 ^ k)
    (hlow : ∀ x ∈ s.entries, x.low < 2 ^ 32)
    (h : allocOp s size align = some (some p, s1)) :
    p % align = 0 := by
  subst halign
  exact allocWalk_aligned _ 0 s s1 p (by omega) hlow h

/-- Witness for C9: `alloc(16, 8)` on a table with one free region at low
pointer `0x100` returns the 8-aligned pointer 256. -/
theorem c9_witness :
    allocOp c9S 16 8 = some (some 256, c9After) ∧
    (3 ≤ 12 ∧ (8 : Nat) = 2 ^ 3 ∧ ∀ x ∈ c9S.entries, x.low < 2 ^ 32) ∧
    256 % 8 = 0 := by
  have h : allocOp c9S 16 8 = some (some 256, c9After) := by decide
  exact ⟨h, ⟨by decide, by decide, by decide⟩,
    c9_alloc_alignment c9S 16 8 3 256 c9After (by decide) (by decide) (by decide) h⟩

/-! Helpers for the `map_range` level selection. -/

/-- `chooseLevel` with its masks and byte thresholds rewritten as remainder
and page-count conditions (`0xf_ffff_ffff = 2^36 - 1`, `0xff_ffff = 2^24 - 1`,
`0xfff = 2^12 - 1`). -/
theorem chooseLevel_eq (n va pa : Nat) :
    chooseLevel (4096 * n) va pa =
      if 262144 ≤ n ∧ va % 2 ^ 36 = 0 ∧ pa % 2 ^ 36 = 0 then some 2
      else if 512 ≤ n ∧ va % 2 ^ 24 = 0 ∧ pa % 2 ^ 24 = 0 then some 1
      else if 1 ≤ n ∧ va % 2 ^ 12 = 0 ∧ pa % 2 ^ 12 = 0 then some 0
      else none := by
  have h36v : va &&& 0xfffffffff = va % 2 ^ 36 := by
    rw [show (0xfffffffff : Nat) = 2 ^ 36 - 1 by norm_num,
      Nat.and_pow_two_sub_one_eq_mod]
  have h36p : pa &&& 0xfffffffff = pa % 2 ^ 36 := by
    rw [show (0xfffffffff : Nat) = 2 ^ 36 - 1 by norm_num,
      Nat.and_pow_two_sub_one_eq_mod]
  have h24v : va &&& 0xffffff = va % 2 ^ 24 := by
    rw [show (0xffffff : Nat) = 2 ^ 24 - 1 by norm_num,
      Nat.and_pow_two_sub_one_eq_mod]
  have h24p : pa &&& 0xffffff = pa % 2 ^ 24 := by
    rw [show (0xffffff : Nat) = 2 ^ 24 - 1 by norm_num,
      Nat.and_pow_two_sub_one_eq_mod]
  have h12v : va &&& 0xfff = va % 2 ^ 12 := by
    rw [show (0xfff : Nat) = 2 ^ 12 - 1 by norm_num,
      Nat.and_pow_two_sub_one_eq_mod]
  have h12p : pa &&& 0xfff = pa % 2 ^ 12 := by
    rw [show (0xfff : Nat) = 2 ^ 12 - 1 by norm_num,
      Nat.and_pow_two_sub_one_eq_mod]
  have hle2 : levelSize 2 ≤ 4096 * n ↔ 262144 ≤ n := by
    show 4096 * 512 * 512 ≤ 4096 * n ↔ _
    omega
  have hle1 : levelSize 1 ≤ 4096 * n ↔ 512 ≤ n := by
    show 4096 * 512 ≤ 4096 * n ↔ _
    omega
  have hle0 : levelSize 0 ≤ 4096 * n ↔ 1 ≤ n := by
    show 4096 ≤ 4096 * n ↔ _
    omega
  unfold chooseLevel
  simp only [h36v, h36p, h24v, h24p, h12v, h12p, hle2, hle1, hle0]

/-- **C2 (amended).** `map_range` greedy superpage selection, as the code
implements it: at every iteration (with `n ≥ 1` pages remaining), the level
chosen is the largest `L ∈ {2,1,0}` such that at least `512^L` pages remain
and both the current virtual and physical addresses are multiples of `M_L`,
where `M_2 = 2^36` (64 GiB), `M_1 = 2^24` (16 MiB) and `M_0 = 2^12` (4 KiB);
if no such `L` exists — which, given at least one remaining page, happens
exactly when one of the addresses is not 4 KiB aligned — the call panics.
(The frozen claim's moduli `4096 · 512^L` are refuted by
`c2_greedy_level_counterexample`: the code's masks `0xf_ffff_ffff` and
`0xff_ffff` demand 2^36 / 2^24 alignment, not 2^30 / 2^21.) -/
theorem c2_level_selection (n va pa : Nat) (hn : 1 ≤ n) :
    (∀ L, chooseLevel (4096 * n) va pa = some L ↔
      (L ≤ 2 ∧ va % 2 ^ (12 + 12 * L) = 0 ∧ pa % 2 ^ (12 + 12 * L) = 0 ∧
        512 ^ L ≤ n ∧
        ∀ L2, L < L2 → L2 ≤ 2 →
          ¬(va % 2 ^ (12 + 12 * L2) = 0 ∧ pa % 2 ^ (12 + 12 * L2) = 0 ∧
            512 ^ L2 ≤ n))) ∧
    (chooseLevel (4096 * n) va pa = none ↔
      ¬(va % 4096 = 0 ∧ pa % 4096 = 0)) := by
  have hC := chooseLevel_eq n va pa
  by_cases hA2 : 262144 ≤ n ∧ va % 2 ^ 36 = 0 ∧ pa % 2 ^ 36 = 0
  · rw [if_pos hA2] at hC
    obtain ⟨ha, hb, hc⟩ := hA2
    rw [hC]
    constructor
    · intro L
      constructor
      · intro h
        have hL : L = 2 := by
          have := Option.some.inj h
          omega
        subst hL
        exact ⟨by omega, by omega, by omega, by omega,
          fun L2 h1 h2 => absurd h1 (by omega)⟩
      · intro ⟨hL2le, hva, hpa, hpow, hmax⟩
        interval_cases L
        · exact absurd ⟨by omega, by omega, by omega⟩
            (hmax 2 (by omega) (by omega))
        · exact absurd ⟨by omega, by omega, by omega⟩
            (hmax 2 (by omega) (by omega))
        · rfl
    · constructor
      · intro h
        exact Option.noConfusion h
      · intro h
        exact absurd ⟨by omega, by omega⟩ h
  · rw [if_neg hA2] at hC
    by_cases hA1 : 512 ≤ n ∧ va % 2 ^ 24 = 0 ∧ pa % 2 ^ 24 = 0
    · rw [if_pos hA1] at hC
      obtain ⟨ha, hb, hc⟩ := hA1
      rw [hC]
      constructor
      · intro L
        constructor
        · intro h
          have hL : L = 1 := by
            have := Option.some.inj h
            omega
          subst hL
          refine ⟨by omega, by omega, by omega, by omega, ?_⟩
          intro L2 h1 h2
          have hL2 : L2 = 2 := by omega
          subst hL2
          intro ⟨hx, hy, hz⟩
          exact hA2 ⟨by omega, by omega, by omega⟩
        · intro ⟨hL2le, hva, hpa, hpow, hmax⟩
          interval_cases L
          · exact absurd ⟨by omega, by omega, by omega⟩
              (hmax 1 (by omega) (by omega))
          · rfl
          · exact absurd ⟨by omega, by omega, by omega⟩ hA2
      · constructor
        · intro h
          exact Option.noConfusion h
        · intro h
          exact absurd ⟨by omega, by omega⟩ h
    · rw [if_neg hA1] at hC
      by_cases hA0 : 1 ≤ n ∧ va % 2 ^ 12 = 0 ∧ pa % 2 ^ 12 = 0
      · rw [if_pos hA0] at hC
        obtain ⟨ha, hb, hc⟩ := hA0
        rw [hC]
        constructor
        · intro L
          constructor
          · intro h
            have hL : L = 0 := by
              have := Option.some.inj h
              omega
            subst hL
            refine ⟨by omega, by omega, by omega, by omega, ?_⟩
            intro L2 h1 h2
            have hL2 : L2 = 1 ∨ L2 = 2 := by omega
            rcases hL2 with rfl | rfl
            · intro ⟨hx, hy, hz⟩
              exact hA1 ⟨by omega, by omega, by omega⟩
            · intro ⟨hx, hy, hz⟩
              exact hA2 ⟨by omega, by omega, by omega⟩
          · intro ⟨hL2le, hva, hpa, hpow, hmax⟩
            interval_cases L
            · rfl
            · exact absurd ⟨by omega, by omega, by omega⟩ hA1
            · exact absurd ⟨by omega, by omega, by omega⟩ hA2
        · constructor
          · intro h
            exact Option.noConfusion h
          · intro h
            exact absurd ⟨by omega, by omega⟩ h
      · rw [if_neg hA0] at hC
        rw [hC]
        constructor
        · intro L
          constructor
          · intro h
            exact Option.noConfusion h
          · intro ⟨hL2le, hva, hpa, hpow, hmax⟩
            interval_cases L
            · exact absurd ⟨by omega, by omega, by omega⟩ hA0
            · exact absurd ⟨by omega, by omega, by omega⟩ hA1
            · exact absurd ⟨by omega, by omega, by omega⟩ hA2
        · constructor
          · intro _
            intro ⟨hx, hy⟩
            exact hA0 ⟨hn, by omega, by omega⟩
          · intro _
            rfl

/-- Counterexample to C2 as frozen: with `va = pa = 2^30` (a multiple of
`4096 · 512^2 = 2^30`) and `512^2` pages remaining, the claim's greedy rule
selects level 2, but `map_range`'s level check masks the addresses with
`0xf_ffff_ffff` (2^36 alignment) and selects level 1. -/
theorem c2_greedy_level_counterexample :
    chooseLevel (4096 * 512 ^ 2) (2 ^ 30) (2 ^ 30) = some 1 ∧
    (2 ^ 30) % (4096 * 512 ^ 2) = 0 ∧ 512 ^ 2 ≤ 512 ^ 2 ∧
    some 1 ≠ some 2 := by
  refine ⟨by decide, by decide, by decide, by decide⟩

/-- Witness for C2: the characterisation instantiated at `n = 1`,
`va = pa = 0`, where every alignment holds but only one page remains, so the
selected level is 0. -/
theorem c2_witness :
    (∀ L, chooseLevel (4096 * 1) 0 0 = some L ↔
      (L ≤ 2 ∧ 0 % 2 ^ (12 + 12 * L) = 0 ∧ 0 % 2 ^ (12 + 12 * L) = 0 ∧
        512 ^ L ≤ 1 ∧
        ∀ L2, L < L2 → L2 ≤ 2 →
          ¬(0 % 2 ^ (12 + 12 * L2) = 0 ∧ 0 % 2 ^ (12 + 12 * L2) = 0 ∧
            512 ^ L2 ≤ 1))) ∧
    (chooseLevel (4096 * 1) 0 0 = none ↔ ¬((0 : Nat) % 4096 = 0 ∧ (0 : Nat) % 4096 = 0)) :=
  c2_level_selection 1 0 0 (by decide)

/-- **C1 (evaluated at the failing input).** Sv39 translation round-trip bug:
after `map(va = 0, pa = 0, ReadWrite, level = 1)` on an empty root table,
`virtual_to_physical_address(va + 0x1000)` returns `Some 0` — not
`Some (pa + 0x1000)` as the round-trip property requires for every offset
`d < 4096 · 512` — because the walker ORs in only `page_offset`'s low 12 bits
of the virtual address even for a superpage leaf, collapsing every in-leaf
offset to `d mod 4096` (witness the correct `d = 0xfff` case alongside). -/
theorem c1_superpage_translation_bug :
    (mapOp c1Heap 4096 0 0 0 6 1 [8192]).isSome = true ∧
    v2p c1Mapped 4096 (0 + 4096) = some 0 ∧
    some (0 : Nat) ≠ some (0 + 4096) ∧
    v2p c1Mapped 4096 (0 + 4095) = some (0 + 4095) := by
  refine ⟨by decide, by decide, by decide, by decide⟩

/-- **C3 (evaluated at the failing inputs).** Syscall write error and success
values: the handler stores positive error codes.  With an unmapped buffer,
`x10` becomes `14` (not the claimed two's-complement `-14`, i.e.
`2^64 - 14`); with a mapped buffer but a missing file descriptor, `x10`
becomes `9` (not `2^64 - 9`); the success case does return `len` in `x10` as
claimed. -/
theorem c3_syscall_return_values :
    ((rawHandleSyscall procFault).map (fun p => p.registers.getD 10 0) = some 14 ∧
      (14 : Nat) ≠ 2 ^ 64 - 14) ∧
    ((rawHandleSyscall procBadFd).map (fun p => p.registers.getD 10 0) = some 9 ∧
      (9 : Nat) ≠ 2 ^ 64 - 9) ∧
    (rawHandleSyscall procOk).map (fun p => p.registers.getD 10 0) = some 5 := by
  refine ⟨⟨by decide, by decide⟩, ⟨by decide, by decide⟩, by decide⟩

/-- **C4 (evaluated at the failing input).** Bitmap allocator full-capacity
allocation: a `from_pages` allocator built from 65 pages of an 8-byte page
type manages 64 pages, its single bitmap word is clear, yet `allocate(64)`
fails with `OutOfMemory` because `try_set` rejects `index + count >= length`
(off by one); `allocate(63)` succeeds. -/
theorem c4_full_capacity_allocation_fails :
    managedPages 8 65 = 64 ∧
    (fromPages 8 65 1000).bitmap.words = [0] ∧
    (fromPages 8 65 1000).bitmap.length = 64 ∧
    (pbaAllocate (fromPages 8 65 1000) 64).1 = .error (.outOfMemory 64) ∧
    (pbaAllocate (fromPages 8 65 1000) 63).1 = .ok 1008 := by
  refine ⟨by decide, by decide, by decide, by decide, by decide⟩

/-- Counterexample to C7 as frozen: with the raw counter at 5 ticks,
`set_time(hart 0, 1 µs)` writes `10·(5/10 + 1) = 10` into `mtimecmp`, not
`5 + 10·1 = 15`. -/
theorem c7_rearm_counterexample :
    (clintSetTime c7Clint 0 1).mtimecmp 0 = 10 ∧ (10 : Nat) ≠ 5 + 10 * 1 := by
  constructor
  · rfl
  · decide

/-- **C7 (amended).** CLINT rearm formula: `set_time(hart, delta_us)` writes
`10 · (mtime[hart] / 10) + 10 · delta_us` (wrapping at 2^64) into
`mtimecmp[hart]` — the raw counter rounded down to a multiple of 10 plus ten
ticks per microsecond — and leaves every other hart's `mtimecmp` unchanged. -/
theorem c7_rearm_formula (c : ClintState) (hart delta : Nat) :
    (clintSetTime c hart delta).mtimecmp hart
      = (10 * (c.mtime hart / 10) + 10 * delta) % 2 ^ 64 ∧
    ∀ h, h ≠ hart → (clintSetTime c hart delta).mtimecmp h = c.mtimecmp h := by
  constructor
  · show (if hart = hart then setTimeValue (c.mtime hart) delta
      else c.mtimecmp hart) = _
    rw [if_pos rfl]
    unfold setTimeValue
    rw [Nat.mul_mod, Nat.mod_mod_of_dvd _ (by norm_num), ← Nat.mul_mod,
      Nat.mul_add]
  · intro h hne
    show (if h = hart then setTimeValue (c.mtime hart) delta
      else c.mtimecmp h) = _
    rw [if_neg hne]

/-- Witness for C7: on `c7Clint` (raw `mtime = 5`) the amended formula gives
`mtimecmp[0] = 10` after `set_time(0, 1)` and hart 1 is untouched. -/
theorem c7_witness :
    (clintSetTime c7Clint 0 1).mtimecmp 0 = (10 * (5 / 10) + 10 * 1) % 2 ^ 64 ∧
    (clintSetTime c7Clint 0 1).mtimecmp 1 = 0 :=
  ⟨(c7_rearm_formula c7Clint 0 1).1, (c7_rearm_formula c7Clint 0 1).2 1 (by decide)⟩

/-- **C8.** Trap resume-PC policy: for every decodable raw cause and every
environment (process available or not, PID found or not, syscall diverging or
not), whenever `handle_trap` returns — it neither panics nor context-switches
away — the returned resume PC is `epc + 4` when the decoded cause is
synchronous and `epc` when it is asynchronous. -/
theorem c8_resume_pc (raw : Nat) (tc : TrapCause) (epc : Nat)
    (hasProcess pidFound syscallDiverges : Bool) (pc : Nat)
    (hdec : fromCause raw = some tc)
    (hret : handleTrap tc epc hasProcess pidFound syscallDiverges = .resume pc) :
    (∀ s, tc = TrapCause.sync s → pc = epc + 4) ∧
    (∀ a, tc = TrapCause.async a → pc = epc) := by
  clear hdec
  unfold handleTrap at hret
  cases hd : trapDispatch tc hasProcess pidFound syscallDiverges with
  | none =>
    rw [hd] at hret
    simp only [] at hret
    have hpc := TrapOutcome.resume.inj hret
    constructor
    · intro sc hsc
      subst hsc
      simp only [isSynchronous, if_pos] at hpc
      exact hpc.symm
    · intro ac hac
      subst hac
      simp only [isSynchronous, Bool.false_eq_true, if_false] at hpc
      exact hpc.symm
  | some outcome =>
    rw [hd] at hret
    simp only [] at hret
    rw [hret] at hd
    exfalso
    cases tc with
    | sync sc =>
      cases sc <;> cases pidFound <;> cases syscallDiverges <;>
        simp [trapDispatch] at hd
    | async ac =>
      cases ac <;> cases hasProcess <;> simp [trapDispatch] at hd

/-- Witness for C8: a breakpoint (synchronous, raw cause 3) at `epc = 256`
resumes at 260. -/
theorem c8_witness :
    fromCause 3 = some (.sync .breakpoint) ∧
    handleTrap (.sync .breakpoint) 256 false false false = .resume 260 ∧
    (260 : Nat) = 256 + 4 := by
  have h1 : fromCause 3 = some (.sync .breakpoint) := by decide
  have h2 : handleTrap (.sync .breakpoint) 256 false false false = .resume 260 := by
    decide
  exact ⟨h1, h2,
    (c8_resume_pc 3 (.sync .breakpoint) 256 false false false 260 h1 h2).1
      SynchronousTrap.breakpoint rfl⟩

/-- **C10.** Bitmap allocator zero-page request: `allocate(0)` hits the
leading `assert!(page_count > 0)` and panics for every allocator state,
including an uninitialized one; the `Uninitialized` error is only reachable
for `page_count ≥ 1`. -/
theorem c10_zero_page_request :
    (∀ s : PBAState, (pbaAllocate s 0).1 = .panicked) ∧
    (∀ (s : PBAState) (k : Nat),
      (pbaAllocate s k).1 = .error .uninitialized → 1 ≤ k) := by
  constructor
  · intro s
    rfl
  · intro s k h
    cases k with
    | zero =>
      exact absurd h (by simp [pbaAllocate])
    | succ k => omega

/-- Witness for C10: the uninitialized allocator panics at `allocate(0)`,
and its `Uninitialized` error at `allocate(1)` indeed has `page_count ≥ 1`. -/
theorem c10_witness :
    (pbaAllocate pbaUninit 0).1 = .panicked ∧
    ((pbaAllocate pbaUninit 1).1 = .error .uninitialized ∧ 1 ≤ 1) := by
  exact ⟨c10_zero_page_request.1 pbaUninit,
    by decide, c10_zero_page_request.2 pbaUninit 1 (by decide)⟩
